import Mathlib

/-!
# Wireframe cube renderer (`src/main.cpp`): embedding and verified properties

The program's `double` is modelled by an ordered field `α` with a floor function
(the theorems take `α = ℝ`, the definitions also run on `ℚ`) and `uint32_t` by
`Nat`.  The C++ type `int` is a parameter of the embedding (`cxx_int`): its
range, its conversion from `double` and its addition, which are the
mathematical truncation and sum whenever the result is representable and are
left to the platform where C++ leaves them undefined.  `cos` and `sin` come from
`<math.h>`, which is not part of the sources, and are a parameter as well; the
theorems instantiate them with `Real.cos` and `Real.sin`.  Raw arrays are lists,
an access outside the list is a fault (`none`).
-/

namespace Render3D

set_option autoImplicit false

variable {α : Type}

/-! ## `v3` and its arithmetic (main.cpp 20-40) -/

/-- 3d-vertex: `class v3 { double x, y, z; }`. -/
structure v3 (α : Type) where
  x : α
  y : α
  z : α
deriving DecidableEq, Repr

/-- Default constructor `v3(void) : x(0), y(0), z(0)`. -/
def v3.zero [Zero α] : v3 α := ⟨0, 0, 0⟩

/-- Vector addition, `operator + (const v3 &a, const v3 &b)`. -/
def v3.add [Add α] (a b : v3 α) : v3 α :=
  ⟨a.x + b.x, a.y + b.y, a.z + b.z⟩

/-- Scalar multiplication, `operator * (const v3 &a, double b)`. -/
def v3.smul [Mul α] (a : v3 α) (b : α) : v3 α :=
  ⟨a.x * b, a.y * b, a.z * b⟩

instance [Add α] : Add (v3 α) := ⟨v3.add⟩
instance [Mul α] : HMul (v3 α) α (v3 α) := ⟨v3.smul⟩

/-- The two functions of `<math.h>` that the program calls. -/
structure math_h (α : Type) where
  cos : α → α
  sin : α → α

/-- Vertex rotation by xyz-angle, `v3 rotate(v3 vector, v3 angle)` (main.cpp 43-65).
Each `let` is one assignment of the source, in source order; `rotated` and
`vector` are re-bound as the source overwrites them. -/
def rotate [Add α] [Sub α] [Mul α] (m : math_h α) (vector angle : v3 α) : v3 α :=
  -- Rotation X
  let rx := vector.x
  let ry := vector.y * m.cos angle.x - vector.z * m.sin angle.x
  let rz := vector.y * m.sin angle.x + vector.z * m.cos angle.x
  let vector : v3 α := ⟨rx, ry, rz⟩
  -- Rotation Y
  let rx := vector.z * m.sin angle.y + vector.x * m.cos angle.y
  let ry := vector.y
  let rz := vector.z * m.cos angle.y - vector.x * m.sin angle.y
  let vector : v3 α := ⟨rx, ry, rz⟩
  -- Rotation Z
  let rx := vector.x * m.cos angle.z - vector.y * m.sin angle.z
  let ry := vector.x * m.sin angle.z + vector.y * m.cos angle.z
  let rz := vector.z
  ⟨rx, ry, rz⟩

/-! ### The three axis rotations as the specification words them (§4.2) -/

/-- About X by `t`: `y' = y cos t − z sin t`, `z' = y sin t + z cos t`, `x' = x`. -/
def Rx [Add α] [Sub α] [Mul α] (m : math_h α) (t : α) (v : v3 α) : v3 α :=
  ⟨v.x, v.y * m.cos t - v.z * m.sin t, v.y * m.sin t + v.z * m.cos t⟩

/-- About Y by `t`: `x' = z sin t + x cos t`, `z' = z cos t − x sin t`, `y' = y`. -/
def Ry [Add α] [Sub α] [Mul α] (m : math_h α) (t : α) (v : v3 α) : v3 α :=
  ⟨v.z * m.sin t + v.x * m.cos t, v.y, v.z * m.cos t - v.x * m.sin t⟩

/-- About Z by `t`: `x' = x cos t − y sin t`, `y' = x sin t + y cos t`, `z' = z`. -/
def Rz [Add α] [Sub α] [Mul α] (m : math_h α) (t : α) (v : v3 α) : v3 α :=
  ⟨v.x * m.cos t - v.y * m.sin t, v.x * m.sin t + v.y * m.cos t, v.z⟩

/-! ## The display and the object (main.cpp 11-18, 68-137) -/

/-- `#define OLED_X 128`. -/
def OLED_X : Int := 128

/-- `#define OLED_Y 64`. -/
def OLED_Y : Int := 64

/-- Edge between vertices: `typedef struct { uint32_t a, b; } edge`.  The indices
and the loop counters are natural numbers: the program only compares them and
counts up to a `uint32_t` bound, so no wrap-around can occur. -/
structure edge where
  a : Nat
  b : Nat
deriving DecidableEq, Repr

/-- Modelled from the spec: the colour argument of the display surface's line-draw
capability, `enum{ON, OFF}` (§6); the library header that defines it is not part
of the sources. -/
inductive color where
  | ON
  | OFF
deriving DecidableEq, Repr

/-- Modelled from the spec: `WHITE`, the colour every line is drawn in, is the lit
colour of the display surface (§6); the library header that defines it is not
part of the sources. -/
def WHITE : color := color.ON

/-- The calls the program makes on the global `oled`; the display itself is
external, the model records the calls in the order they are made. -/
inductive oled_call where
  | begin (switchvcc i2caddr : Nat)
  | setTextColor (c : color)
  | setCursor (x y : Int)
  | clearDisplay
  | display
  | drawLine (x0 y0 x1 y1 : Int) (c : color)
deriving DecidableEq, Repr

/-- An array access of `update_projection` or `draw`: which array, which index. -/
inductive access where
  | vertices (i : Nat)
  | edges (i : Nat)
  | projection (i : Nat)
deriving DecidableEq, Repr

/-- The fields of `class object_3d`.  The three pointers are the lists they point
to; the counts are separate fields, as in the source. -/
structure object_3d (α : Type) where
  vertices_n : Nat
  edges_n : Nat
  projection : List (v3 α)
  vertices : List (v3 α)
  edges : List edge
  rotation : v3 α
  scale : α
deriving Repr

/-- What a run of the program acts on: the object, the calls made on `oled` so
far and the array accesses made so far, both oldest first. -/
structure machine (α : Type) where
  obj : object_3d α
  oled : List oled_call
  trace : List access
deriving Repr

/-- Truncation toward zero, as a mathematical integer: the fractional part is
discarded.  It is the value of the conversion `(int) d` whenever that value is
representable in `int`. -/
def trunc [LinearOrderedRing α] [FloorRing α] (d : α) : Int :=
  if 0 ≤ d then ⌊d⌋ else ⌈d⌉

/-- The C++ type `int` of the target, which the sources do not fix (an Arduino
`int` has 16 or 32 bits).  `of_double d` is the conversion `(int) d` and `add`
the `int` addition.  C++ defines them only when the result is representable:
then they are the truncation and the sum.  Outside that range the behaviour is
undefined in C++; the embedding takes whatever the platform computes there and
assumes nothing about it.  The range contains at least `-32767 .. 32767`. -/
structure cxx_int (α : Type) [LinearOrderedRing α] [FloorRing α] where
  INT_MIN : Int
  INT_MAX : Int
  of_double : α → Int
  add : Int → Int → Int
  INT_MIN_le : INT_MIN ≤ -32767
  le_INT_MAX : 32767 ≤ INT_MAX
  of_double_eq : ∀ d : α, INT_MIN ≤ trunc d → trunc d ≤ INT_MAX → of_double d = trunc d
  add_eq : ∀ a b : Int, INT_MIN ≤ a → a ≤ INT_MAX → INT_MIN ≤ b → b ≤ INT_MAX →
    INT_MIN ≤ a + b → a + b ≤ INT_MAX → add a b = a + b

/-- Reduction of an integer into the two's complement range of `bits + 1` bits. -/
def wrap (bits : Nat) (x : Int) : Int :=
  (x + 2 ^ bits) % (2 * 2 ^ bits) - 2 ^ bits

/-- A two's complement `int` of `bits + 1` bits: the addition wraps around and
an unrepresentable conversion gives `INT_MIN`, as on x86. -/
def cxx_int.twos_complement [LinearOrderedRing α] [FloorRing α] (bits : Nat)
    (h : 15 ≤ bits) : cxx_int α where
  INT_MIN := -(2 ^ bits)
  INT_MAX := 2 ^ bits - 1
  of_double d :=
    if -(2 ^ bits) ≤ trunc d ∧ trunc d ≤ 2 ^ bits - 1 then trunc d else -(2 ^ bits)
  add a b := wrap bits (a + b)
  INT_MIN_le := by
    have h2 : (2 : Int) ^ 15 ≤ 2 ^ bits := pow_le_pow_right₀ (by decide) h
    have h3 : (2 : Int) ^ 15 = 32768 := by decide
    omega
  le_INT_MAX := by
    have h2 : (2 : Int) ^ 15 ≤ 2 ^ bits := pow_le_pow_right₀ (by decide) h
    have h3 : (2 : Int) ^ 15 = 32768 := by decide
    omega
  of_double_eq := by
    intro d h1 h2
    simp only [h1, h2, and_self, if_true]
  add_eq := by
    intro a b _ _ _ _ h1 h2
    show wrap bits (a + b) = a + b
    unfold wrap
    rw [Int.emod_eq_of_lt (by omega) (by omega)]
    omega

/-- The 32-bit `int` of the 32-bit Arduino targets. -/
def int32 [LinearOrderedRing α] [FloorRing α] : cxx_int α :=
  cxx_int.twos_complement 31 (by decide)

/-- The 16-bit `int` of the AVR Arduino targets. -/
def int16 [LinearOrderedRing α] [FloorRing α] : cxx_int α :=
  cxx_int.twos_complement 15 (by decide)

/-- An assignment `xs[i] = v`; outside the array it is a fault. -/
def store {β : Type} (xs : List β) (i : Nat) (v : β) : Option (List β) :=
  if i < xs.length then some (xs.set i v) else none

section object

variable [LinearOrderedField α] [FloorRing α]

/-- The constructor `object_3d(new_vertices, new_edges, new_vertices_n, new_edges_n)`
(main.cpp 84-94); `new v3[new_vertices_n]` default-constructs every entry. -/
def object_3d.new (new_vertices : List (v3 α)) (new_edges : List edge)
    (new_vertices_n new_edges_n : Nat) : object_3d α :=
  { vertices := new_vertices
    edges := new_edges
    vertices_n := new_vertices_n
    edges_n := new_edges_n
    projection := List.replicate new_vertices_n v3.zero
    rotation := ⟨0, 0, 0⟩
    scale := 1 }

/-- The body of the loop of `update_projection` at index `i` (main.cpp 111-112). -/
def update_projection_body (m : math_h α) (s : machine α) (i : Nat) :
    Option (machine α) := do
  -- projection[i] = vertices[i] * scale;
  let v ← s.obj.vertices[i]?
  let p ← store s.obj.projection i (v * s.obj.scale)
  -- projection[i] = rotate(projection[i], rotation);
  let w ← p[i]?
  let p ← store p i (rotate m w s.obj.rotation)
  pure { s with
    obj := { s.obj with projection := p }
    trace := s.trace ++
      [access.vertices i, access.projection i, access.projection i, access.projection i] }

/-- `object_3d::update_projection` (main.cpp 105-114):
`for(i = 0; i < vertices_n; i++)`. -/
def update_projection (m : math_h α) (s : machine α) : Option (machine α) :=
  (List.range s.obj.vertices_n).foldlM (update_projection_body m) s

/-- The body of the loop of `draw` at index `i` (main.cpp 123-128); `x0`, `x1`,
`y0`, `y1` are `int`: conversion and addition are those of `ci`. -/
def draw_body (ci : cxx_int α) (s : machine α) (i : Nat) : Option (machine α) := do
  -- int x0 = (int) projection[edges[i].a].x + (OLED_X / 2);
  let e ← s.obj.edges[i]?
  let p ← s.obj.projection[e.a]?
  let x0 := ci.add (ci.of_double p.x) (OLED_X / 2)
  -- int x1 = (int) projection[edges[i].b].x + (OLED_X / 2);
  let e ← s.obj.edges[i]?
  let p ← s.obj.projection[e.b]?
  let x1 := ci.add (ci.of_double p.x) (OLED_X / 2)
  -- int y0 = (int) projection[edges[i].a].y + (OLED_Y / 2);
  let e ← s.obj.edges[i]?
  let p ← s.obj.projection[e.a]?
  let y0 := ci.add (ci.of_double p.y) (OLED_Y / 2)
  -- int y1 = (int) projection[edges[i].b].y + (OLED_Y / 2);
  let e ← s.obj.edges[i]?
  let p ← s.obj.projection[e.b]?
  let y1 := ci.add (ci.of_double p.y) (OLED_Y / 2)
  -- oled.drawLine(x0, y0, x1, y1, WHITE);
  pure { s with
    oled := s.oled ++ [oled_call.drawLine x0 y0 x1 y1 WHITE]
    trace := s.trace ++
      [access.edges i, access.projection e.a, access.edges i, access.projection e.b,
       access.edges i, access.projection e.a, access.edges i, access.projection e.b] }

/-- `object_3d::draw` (main.cpp 116-130): `for(i = 0; i < edges_n; i++)`. -/
def draw (ci : cxx_int α) (s : machine α) : Option (machine α) :=
  (List.range s.obj.edges_n).foldlM (draw_body ci) s

/-- `object_3d::render` (main.cpp 133-137). -/
def render (ci : cxx_int α) (m : math_h α) (s : machine α) : Option (machine α) := do
  let s ← update_projection m s
  draw ci s

/-- `render` invoked `n` times in a row, nothing else in between. -/
def render_times (ci : cxx_int α) (m : math_h α) : Nat → machine α → Option (machine α)
  | 0, s => some s
  | n + 1, s => do
    let s ← render ci m s
    render_times ci m n s

/-! ## The compiled-in cube and the host loop (main.cpp 141-166) -/

/-- `v3 cube_vertices[]`. -/
def cube_vertices : List (v3 α) :=
  [⟨-1, -1, -1⟩, ⟨1, -1, -1⟩, ⟨1, 1, -1⟩, ⟨-1, 1, -1⟩,
   ⟨-1, -1, 1⟩, ⟨1, -1, 1⟩, ⟨1, 1, 1⟩, ⟨-1, 1, 1⟩]

/-- `edge cube_edges[]`. -/
def cube_edges : List edge :=
  [⟨0, 1⟩, ⟨1, 2⟩, ⟨2, 3⟩, ⟨3, 0⟩, ⟨4, 5⟩, ⟨5, 6⟩, ⟨6, 7⟩, ⟨7, 4⟩,
   ⟨0, 4⟩, ⟨1, 5⟩, ⟨2, 6⟩, ⟨3, 7⟩]

/-- The global `object_3d cube(...)`; the two `sizeof` quotients are the lengths
of the arrays. -/
def cube : object_3d α :=
  object_3d.new cube_vertices cube_edges
    (cube_vertices : List (v3 α)).length cube_edges.length

/-- The program state when `setup` is entered: the globals are constructed, no
call has been made on `oled`. -/
def boot : machine α := ⟨cube, [], []⟩

/-- `setup` (main.cpp 146-153).  `SSD1306_SWITCHCAPVCC` is a constant of the
display library, a parameter here. -/
def setup (SSD1306_SWITCHCAPVCC : Nat) (s : machine α) : machine α :=
  let s := { s with oled := s.oled ++ [oled_call.begin SSD1306_SWITCHCAPVCC 0x3C] }
  let s := { s with oled := s.oled ++ [oled_call.setTextColor WHITE] }
  let s := { s with oled := s.oled ++ [oled_call.setCursor 0 0] }
  -- cube.scale = 20;
  { s with obj := { s.obj with scale := 20 } }

/-- `loop` (main.cpp 156-166): one tick of the host loop. -/
def loop (ci : cxx_int α) (m : math_h α) (s : machine α) : Option (machine α) := do
  let s := { s with oled := s.oled ++ [oled_call.clearDisplay] }
  let s ← render ci m s
  let s := { s with oled := s.oled ++ [oled_call.display] }
  -- cube.rotation.x += 0.05; cube.rotation.y += 0.05; cube.rotation.z += 0.05;
  let s := { s with obj := { s.obj with rotation := { s.obj.rotation with x := s.obj.rotation.x + 0.05 } } }
  let s := { s with obj := { s.obj with rotation := { s.obj.rotation with y := s.obj.rotation.y + 0.05 } } }
  let s := { s with obj := { s.obj with rotation := { s.obj.rotation with z := s.obj.rotation.z + 0.05 } } }
  pure s

end object

/-! ## Specification-level functions used to state the theorems -/

section spec

variable [LinearOrderedField α] [FloorRing α]

/-- The projected position of a vertex `v` of the object `o`: scaled, then
rotated. -/
def projected (m : math_h α) (o : object_3d α) (v : v3 α) : v3 α :=
  rotate m (v * o.scale) o.rotation

/-- The line-draw call for the edge `e` when the endpoints are read from the
list `ps`: each coordinate is converted to `int`, then the offset `(64, 32)` is
added in `int`. -/
def edge_call (ci : cxx_int α) (ps : List (v3 α)) (e : edge) : oled_call :=
  oled_call.drawLine
    (ci.add (ci.of_double (ps.getD e.a v3.zero).x) 64)
    (ci.add (ci.of_double (ps.getD e.a v3.zero).y) 32)
    (ci.add (ci.of_double (ps.getD e.b v3.zero).x) 64)
    (ci.add (ci.of_double (ps.getD e.b v3.zero).y) 32) WHITE

/-- The sequence of calls of one frame, as a function of the vertex list, the
edge list, the rotation and the scale alone. -/
def frame (ci : cxx_int α) (m : math_h α) (vertices : List (v3 α)) (edges : List edge)
    (rotation : v3 α) (scale : α) : List oled_call :=
  edges.map (fun e =>
    oled_call.drawLine
      (ci.add (ci.of_double (rotate m (vertices.getD e.a v3.zero * scale) rotation).x) 64)
      (ci.add (ci.of_double (rotate m (vertices.getD e.a v3.zero * scale) rotation).y) 32)
      (ci.add (ci.of_double (rotate m (vertices.getD e.b v3.zero * scale) rotation).x) 64)
      (ci.add (ci.of_double (rotate m (vertices.getD e.b v3.zero * scale) rotation).y) 32)
      WHITE)

/-- The pixel of the point `p` is computed inside `int`: the truncated
coordinates and the sums with the offsets `64` and `32` are representable. -/
def pixel_ok (ci : cxx_int α) (p : v3 α) : Prop :=
  (ci.INT_MIN ≤ trunc p.x ∧ trunc p.x + 64 ≤ ci.INT_MAX)
    ∧ (ci.INT_MIN ≤ trunc p.y ∧ trunc p.y + 32 ≤ ci.INT_MAX)

/-- The array accesses of iteration `i` of `update_projection`. -/
def update_projection_accesses (i : Nat) : List access :=
  [access.vertices i, access.projection i, access.projection i, access.projection i]

/-- The array accesses of the iteration of `draw` that handles the edge `e`,
the `i`-th of the edge list. -/
def draw_accesses (i : Nat) (e : edge) : List access :=
  [access.edges i, access.projection e.a, access.edges i, access.projection e.b,
   access.edges i, access.projection e.a, access.edges i, access.projection e.b]

/-- The array accesses of the first `k` iterations of `draw`. -/
def draw_trace (edges : List edge) (k : Nat) : List access :=
  (List.range k).flatMap (fun i => draw_accesses i (edges.getD i ⟨0, 0⟩))

/-- The caller contract of the object (§3): the counts are the lengths of the
two arrays, the cache has one entry per vertex and every edge index is smaller
than the vertex count. -/
structure object_3d.valid (o : object_3d α) : Prop where
  vertices_n_eq : o.vertices_n = o.vertices.length
  edges_n_eq : o.edges_n = o.edges.length
  projection_length : o.projection.length = o.vertices_n
  edges_lt : ∀ e ∈ o.edges, e.a < o.vertices_n ∧ e.b < o.vertices_n

/-- An access is inside its array: `vertices` and `edges` are indexed below
their counts, the cache below the vertex count (its allocated length). -/
def access.inside (o : object_3d α) : access → Prop
  | access.vertices i => i < o.vertices_n ∧ i < o.vertices.length
  | access.edges i => i < o.edges_n ∧ i < o.edges.length
  | access.projection i => i < o.vertices_n ∧ i < o.projection.length

/-- Two vertices differ in exactly one coordinate. -/
def differ_in_one (p q : v3 α) : Prop :=
  (p.x ≠ q.x ∧ p.y = q.y ∧ p.z = q.z)
    ∨ (p.x = q.x ∧ p.y ≠ q.y ∧ p.z = q.z)
    ∨ (p.x = q.x ∧ p.y = q.y ∧ p.z ≠ q.z)

/-- The column vector of a `v3`. -/
def v3.to_vec (v : v3 α) : Fin 3 → α := ![v.x, v.y, v.z]

/-- The `v3` of a column vector. -/
def v3.of_vec (u : Fin 3 → α) : v3 α := ⟨u 0, u 1, u 2⟩

/-- The standard right-handed rotation matrix about the X axis. -/
def Mx (m : math_h α) (t : α) : Matrix (Fin 3) (Fin 3) α :=
  !![1, 0, 0;
     0, m.cos t, -m.sin t;
     0, m.sin t, m.cos t]

/-- The standard right-handed rotation matrix about the Y axis. -/
def My (m : math_h α) (t : α) : Matrix (Fin 3) (Fin 3) α :=
  !![m.cos t, 0, m.sin t;
     0, 1, 0;
     -m.sin t, 0, m.cos t]

/-- The standard right-handed rotation matrix about the Z axis. -/
def Mz (m : math_h α) (t : α) : Matrix (Fin 3) (Fin 3) α :=
  !![m.cos t, -m.sin t, 0;
     m.sin t, m.cos t, 0;
     0, 0, 1]

/-- The squared Euclidean length of a vector. -/
def v3.sq_length (v : v3 α) : α := v.x ^ 2 + v.y ^ 2 + v.z ^ 2

end spec

/-! ## Theorems about `rotate` -/

theorem smul_def [Mul α] (a : v3 α) (b : α) : a * b = ⟨a.x * b, a.y * b, a.z * b⟩ := rfl

/-- C2: `rotate v (ax, ay, az)` is `Rz az` applied to `Ry ay` applied to `Rx ax`
applied to `v`: the axis rotations run in the order X, Y, Z, each on the output
of the previous one. -/
theorem rotate_eq_Rz_Ry_Rx (v : v3 ℝ) (ax ay az : ℝ) :
    rotate (math_h.mk Real.cos Real.sin) v ⟨ax, ay, az⟩
      = Rz (math_h.mk Real.cos Real.sin) az
          (Ry (math_h.mk Real.cos Real.sin) ay
            (Rx (math_h.mk Real.cos Real.sin) ax v)) := by
  rfl

/-- C3: rotating by the angles `(0, 0, 0)` returns the vector unchanged. -/
theorem rotate_zero (v : v3 ℝ) :
    rotate (math_h.mk Real.cos Real.sin) v ⟨0, 0, 0⟩ = v := by
  cases v
  simp [rotate]

/-- In exact real arithmetic a rotation about one axis by `t` followed by the
rotation about the same axis by `-t` returns the original vector, for X, Y and
Z.  The program's doubles satisfy this only up to rounding. -/
theorem rotate_single_axis_inverse (v : v3 ℝ) (t : ℝ) :
    rotate (math_h.mk Real.cos Real.sin)
        (rotate (math_h.mk Real.cos Real.sin) v ⟨t, 0, 0⟩) ⟨-t, 0, 0⟩ = v
    ∧ rotate (math_h.mk Real.cos Real.sin)
        (rotate (math_h.mk Real.cos Real.sin) v ⟨0, t, 0⟩) ⟨0, -t, 0⟩ = v
    ∧ rotate (math_h.mk Real.cos Real.sin)
        (rotate (math_h.mk Real.cos Real.sin) v ⟨0, 0, t⟩) ⟨0, 0, -t⟩ = v := by
  obtain ⟨x, y, z⟩ := v
  have h := Real.cos_sq_add_sin_sq t
  refine ⟨?_, ?_, ?_⟩ <;>
    simp only [rotate, Real.cos_zero, Real.sin_zero, Real.cos_neg, Real.sin_neg,
      v3.mk.injEq] <;>
    refine ⟨?_, ?_, ?_⟩ <;>
    first
      | ring1
      | linear_combination x * h
      | linear_combination y * h
      | linear_combination z * h

/-! ## The two loops -/

section loops

variable [LinearOrderedField α]

theorem OLED_X_half : OLED_X / 2 = 64 := by decide

theorem OLED_Y_half : OLED_Y / 2 = 32 := by decide

/-- Writing entry `k` of a list whose first `k` entries are already the images of
`V` extends the rewritten prefix by one. -/
theorem set_extend {β γ : Type} (f : β → γ) (V : List β) (P : List γ) (k : Nat)
    (hk : k < V.length) (hp : k < P.length) :
    ((V.take k).map f ++ P.drop k).set k (f V[k])
      = (V.take (k + 1)).map f ++ P.drop (k + 1) := by
  have hl : ((V.take k).map f).length = k := by
    simp [List.length_take]; omega
  rw [List.set_append, hl, if_neg (Nat.lt_irrefl k), Nat.sub_self,
    List.drop_eq_getElem_cons hp, List.set_cons_zero, List.take_succ,
    List.getElem?_eq_getElem hk]
  simp only [Option.toList_some, List.map_append, List.map_cons, List.map_nil,
    List.append_assoc, List.singleton_append]

/-- One iteration of `update_projection` inside the arrays: entry `i` of the
cache becomes the projected vertex `i`, nothing else changes. -/
theorem update_projection_body_eq (m : math_h α) (o : object_3d α)
    (cs : List oled_call) (tr : List access) (i : Nat) (v : v3 α)
    (hv : o.vertices[i]? = some v) (hp : i < o.projection.length) :
    update_projection_body m ⟨o, cs, tr⟩ i = some
      ⟨{ o with projection := o.projection.set i (projected m o v) }, cs,
        tr ++ update_projection_accesses i⟩ := by
  simp [update_projection_body, hv, store, hp, projected, update_projection_accesses]

/-- The first `k` iterations of `update_projection`. -/
theorem update_projection_upto (m : math_h α) (o : object_3d α)
    (cs : List oled_call) (tr : List access) (k : Nat)
    (hv : k ≤ o.vertices.length) (hp : k ≤ o.projection.length) :
    (List.range k).foldlM (update_projection_body m) ⟨o, cs, tr⟩ = some
      ⟨{ o with projection := (o.vertices.take k).map (projected m o) ++ o.projection.drop k },
        cs, tr ++ (List.range k).flatMap update_projection_accesses⟩ := by
  induction k with
  | zero => simp
  | succ k ih =>
    have hk : k < o.vertices.length := by omega
    have hk2 : k < o.projection.length := by omega
    rw [List.range_succ, List.foldlM_append, ih (by omega) (by omega)]
    simp only [Option.bind_eq_bind, Option.some_bind, List.foldlM_cons, List.foldlM_nil]
    rw [update_projection_body_eq m _ _ _ k o.vertices[k]
      (by simp [List.getElem?_eq_getElem hk]) (by simp; omega)]
    simp only [Option.some_bind, Option.pure_def, Option.some.injEq]
    have hset := set_extend (projected m o) o.vertices o.projection k hk hk2
    simp only [projected] at hset ⊢
    rw [hset]
    simp [List.flatMap_append, List.append_assoc]

/-- The whole of `update_projection` on an object whose cache has one entry per
vertex: the cache becomes the list of the projected vertices. -/
theorem update_projection_eq (m : math_h α) (o : object_3d α)
    (cs : List oled_call) (tr : List access)
    (hv : o.vertices_n ≤ o.vertices.length)
    (hp : o.projection.length = o.vertices_n) :
    update_projection m ⟨o, cs, tr⟩ = some
      ⟨{ o with projection := (o.vertices.take o.vertices_n).map (projected m o) }, cs,
        tr ++ (List.range o.vertices_n).flatMap update_projection_accesses⟩ := by
  unfold update_projection
  simp only
  rw [update_projection_upto m o cs tr o.vertices_n hv (by omega), ← hp,
    List.drop_length, List.append_nil]

end loops

section draw_loop

variable [LinearOrderedField α] [FloorRing α]

/-- One iteration of `draw` inside the arrays: one line-draw call is appended,
the object is not changed. -/
theorem draw_body_eq (ci : cxx_int α) (o : object_3d α) (cs : List oled_call) (tr : List access)
    (i : Nat) (e : edge) (he : o.edges[i]? = some e)
    (ha : e.a < o.projection.length) (hb : e.b < o.projection.length) :
    draw_body ci ⟨o, cs, tr⟩ i = some
      ⟨o, cs ++ [edge_call ci o.projection e], tr ++ draw_accesses i e⟩ := by
  simp [draw_body, he, List.getElem?_eq_getElem ha, List.getElem?_eq_getElem hb,
    edge_call, draw_accesses, OLED_X_half, OLED_Y_half, List.getD_eq_getElem?_getD]

/-- The first `k` iterations of `draw`. -/
theorem draw_upto (ci : cxx_int α) (o : object_3d α) (cs : List oled_call) (tr : List access)
    (k : Nat) (hk : k ≤ o.edges.length)
    (hlt : ∀ e ∈ o.edges.take k, e.a < o.projection.length ∧ e.b < o.projection.length) :
    (List.range k).foldlM (draw_body ci) ⟨o, cs, tr⟩ = some
      ⟨o, cs ++ (o.edges.take k).map (edge_call ci o.projection),
        tr ++ draw_trace o.edges k⟩ := by
  induction k with
  | zero => simp [draw_trace]
  | succ k ih =>
    have hk1 : k < o.edges.length := by omega
    have htake : o.edges.take (k + 1) = o.edges.take k ++ [o.edges[k]] := by
      rw [List.take_succ, List.getElem?_eq_getElem hk1]; rfl
    have hlt1 : ∀ e ∈ o.edges.take k,
        e.a < o.projection.length ∧ e.b < o.projection.length := by
      intro e he
      exact hlt e (htake ▸ List.mem_append_left _ he)
    have hlast := hlt o.edges[k]
      (htake ▸ List.mem_append_right _ (List.mem_singleton_self _))
    rw [List.range_succ, List.foldlM_append, ih (by omega) hlt1]
    simp only [Option.bind_eq_bind, Option.some_bind, List.foldlM_cons, List.foldlM_nil]
    rw [draw_body_eq ci o _ _ k o.edges[k] (by simp [List.getElem?_eq_getElem hk1])
      hlast.1 hlast.2]
    have ht : draw_trace o.edges (k + 1)
        = draw_trace o.edges k ++ draw_accesses k o.edges[k] := by
      simp [draw_trace, List.range_succ, List.flatMap_append,
        List.getD_eq_getElem?_getD, List.getElem?_eq_getElem hk1]
    rw [htake, ht]
    simp only [Option.some_bind, Option.pure_def, List.map_append, List.map_cons,
      List.map_nil, List.append_assoc]

/-- The whole of `draw` on an object whose edges all index inside the cache. -/
theorem draw_eq (ci : cxx_int α) (o : object_3d α) (cs : List oled_call) (tr : List access)
    (hn : o.edges_n = o.edges.length)
    (hlt : ∀ e ∈ o.edges, e.a < o.projection.length ∧ e.b < o.projection.length) :
    draw ci ⟨o, cs, tr⟩ = some
      ⟨o, cs ++ o.edges.map (edge_call ci o.projection),
        tr ++ draw_trace o.edges o.edges_n⟩ := by
  unfold draw
  simp only
  rw [draw_upto ci o cs tr o.edges_n (by omega)
    (fun e he => hlt e (List.mem_of_mem_take he)), hn, List.take_length]

/-- The calls of `draw` on the list of the projected vertices are the frame of
the object. -/
theorem map_edge_call_projected (ci : cxx_int α) (m : math_h α) (o : object_3d α)
    (hn : o.vertices_n = o.vertices.length)
    (hlt : ∀ e ∈ o.edges, e.a < o.vertices_n ∧ e.b < o.vertices_n) :
    o.edges.map (edge_call ci (o.vertices.map (projected m o)))
      = frame ci m o.vertices o.edges o.rotation o.scale := by
  unfold frame
  apply List.map_congr_left
  intro e he
  have ha : e.a < o.vertices.length := by have := (hlt e he).1; omega
  have hb : e.b < o.vertices.length := by have := (hlt e he).2; omega
  simp [edge_call, List.getD_eq_getElem?_getD, List.getElem?_eq_getElem ha,
    List.getElem?_eq_getElem hb, projected]

/-- The call of an edge reads only the `x` and `y` components of the cache. -/
theorem edge_call_congr (ci : cxx_int α) (P Q : List (v3 α))
    (h : Q.map (fun p => (p.x, p.y)) = P.map (fun p => (p.x, p.y))) (e : edge) :
    edge_call ci Q e = edge_call ci P e := by
  have key : ∀ i, (Q.getD i v3.zero).x = (P.getD i v3.zero).x
      ∧ (Q.getD i v3.zero).y = (P.getD i v3.zero).y := by
    intro i
    have hi := congrArg (fun l => l[i]?) h
    simp only [List.getElem?_map] at hi
    rw [List.getD_eq_getElem?_getD, List.getD_eq_getElem?_getD]
    cases hq : Q[i]? <;> cases hp : P[i]? <;> rw [hq, hp] at hi <;>
      simp only [Option.map_none', Option.map_some', Option.some.injEq, Prod.mk.injEq,
        reduceCtorEq] at hi
    · exact ⟨rfl, rfl⟩
    · exact hi
  simp only [edge_call, (key e.a).1, (key e.a).2, (key e.b).1, (key e.b).2]

/-- The whole of `render` on a valid object: it does not fault, the cache becomes
the list of the projected vertices, the frame of the object is appended to the
calls on `oled`, and nothing else of the object changes. -/
theorem render_eq (ci : cxx_int α) (m : math_h α) (o : object_3d α) (cs : List oled_call)
    (tr : List access) (h : o.valid) :
    render ci m ⟨o, cs, tr⟩ = some
      ⟨{ o with projection := o.vertices.map (projected m o) },
        cs ++ frame ci m o.vertices o.edges o.rotation o.scale,
        tr ++ (List.range o.vertices_n).flatMap update_projection_accesses
          ++ draw_trace o.edges o.edges_n⟩ := by
  have htake : o.vertices.take o.vertices_n = o.vertices := by
    rw [h.vertices_n_eq, List.take_length]
  have hu := update_projection_eq m o cs tr (le_of_eq h.vertices_n_eq) h.projection_length
  rw [htake] at hu
  have hd := draw_eq ci { o with projection := o.vertices.map (projected m o) } cs
    (tr ++ (List.range o.vertices_n).flatMap update_projection_accesses) h.edges_n_eq
    (by
      intro e he
      have := h.edges_lt e he
      simpa [h.vertices_n_eq] using this)
  simp only [map_edge_call_projected ci m o h.vertices_n_eq h.edges_lt] at hd
  unfold render
  rw [hu]
  simp only [Option.bind_eq_bind, Option.some_bind]
  rw [hd]

end draw_loop

/-! ## The contract of `render` -/

section contract

/-- The cube as constructed satisfies the caller contract, also after `setup`. -/
theorem cube_valid {α : Type} [LinearOrderedField α] [FloorRing α] :
    (cube : object_3d α).valid :=
  ⟨rfl, rfl, rfl, show ∀ e ∈ cube_edges, e.a < 8 ∧ e.b < 8 by decide⟩

/-- The caller contract does not mention the cache contents, the rotation or the
scale. -/
theorem valid_of_fields {α : Type} [LinearOrderedField α] [FloorRing α]
    (o : object_3d α) (h : o.valid) (P : List (v3 α)) (hP : P.length = o.vertices_n)
    (r : v3 α) (k : α) :
    ({ o with projection := P, rotation := r, scale := k } : object_3d α).valid :=
  ⟨h.vertices_n_eq, h.edges_n_eq, hP, h.edges_lt⟩

/-! ### `int` arithmetic inside its range -/

theorem trunc_intCast {α : Type} [LinearOrderedField α] [FloorRing α] (z : Int) :
    trunc (z : α) = z := by
  unfold trunc
  split <;> simp

/-- Converting a `double` and adding a small non-negative constant gives the
truncation plus the constant when both are representable. -/
theorem add_of_double_eq {α : Type} [LinearOrderedField α] [FloorRing α]
    (ci : cxx_int α) (d : α) (k : Int) (hk0 : 0 ≤ k) (hk : k ≤ 32767)
    (h1 : ci.INT_MIN ≤ trunc d) (h2 : trunc d + k ≤ ci.INT_MAX) :
    ci.add (ci.of_double d) k = trunc d + k := by
  have hmin := ci.INT_MIN_le
  have hmax := ci.le_INT_MAX
  rw [ci.of_double_eq d h1 (by omega)]
  exact ci.add_eq _ _ h1 (by omega) (by omega) (by omega) (by omega) h2

/-- The same on every platform for values that fit the smallest `int`. -/
theorem add_of_double_small {α : Type} [LinearOrderedField α] [FloorRing α]
    (ci : cxx_int α) (d : α) (k t : Int) (ht : trunc d = t) (hk0 : 0 ≤ k) (hk : k ≤ 64)
    (h1 : -32767 ≤ t) (h2 : t ≤ 32000) :
    ci.add (ci.of_double d) k = t + k := by
  have hmin := ci.INT_MIN_le
  have hmax := ci.le_INT_MAX
  rw [add_of_double_eq ci d k hk0 (by omega) (by omega) (by omega), ht]

/-- The call of an edge whose two endpoints have their pixel inside `int`. -/
theorem edge_call_of_pixel_ok {α : Type} [LinearOrderedField α] [FloorRing α]
    (ci : cxx_int α) (ps : List (v3 α)) (e : edge)
    (ha : pixel_ok ci (ps.getD e.a v3.zero)) (hb : pixel_ok ci (ps.getD e.b v3.zero)) :
    edge_call ci ps e = oled_call.drawLine
      (trunc (ps.getD e.a v3.zero).x + 64) (trunc (ps.getD e.a v3.zero).y + 32)
      (trunc (ps.getD e.b v3.zero).x + 64) (trunc (ps.getD e.b v3.zero).y + 32) WHITE := by
  simp only [edge_call]
  rw [add_of_double_eq ci _ 64 (by decide) (by decide) ha.1.1 ha.1.2,
    add_of_double_eq ci _ 32 (by decide) (by decide) ha.2.1 ha.2.2,
    add_of_double_eq ci _ 64 (by decide) (by decide) hb.1.1 hb.1.2,
    add_of_double_eq ci _ 32 (by decide) (by decide) hb.2.1 hb.2.2]

/-- The 32-bit conversion of a representable integer value. -/
theorem int32_of_double_intCast (z : Int) (h1 : -2147483648 ≤ z) (h2 : z ≤ 2147483647) :
    (int32 : cxx_int ℝ).of_double (z : ℝ) = z := by
  have h := (int32 : cxx_int ℝ).of_double_eq (z : ℝ)
    (by rw [trunc_intCast]; exact h1) (by rw [trunc_intCast]; exact h2)
  rw [trunc_intCast] at h
  exact h

/-- On a 32-bit `int` the frame of the single vertex `(2147483600, 0, 0)` with
the edge `(0, 0)`, unrotated and unscaled, is drawn at `x = -2147483632`: the
sum `2147483600 + 64` is outside `int`. -/
theorem frame_outside_int :
    frame int32 (math_h.mk Real.cos Real.sin) [(⟨2147483600, 0, 0⟩ : v3 ℝ)] [⟨0, 0⟩] ⟨0, 0, 0⟩ 1
      = [oled_call.drawLine (-2147483632) 32 (-2147483632) 32 WHITE] := by
  have hrot : rotate (math_h.mk Real.cos Real.sin)
      ((⟨2147483600, 0, 0⟩ : v3 ℝ) * (1 : ℝ)) ⟨0, 0, 0⟩ = ⟨2147483600, 0, 0⟩ := by
    simp [rotate, smul_def]
  have hx : (int32 : cxx_int ℝ).of_double (2147483600 : ℝ) = 2147483600 := by
    have h := int32_of_double_intCast 2147483600 (by decide) (by decide)
    simpa using h
  have hy : (int32 : cxx_int ℝ).of_double (0 : ℝ) = 0 := by
    have h := int32_of_double_intCast 0 (by decide) (by decide)
    simpa using h
  have hax : (int32 : cxx_int ℝ).add 2147483600 64 = -2147483632 := by decide
  have hay : (int32 : cxx_int ℝ).add 0 32 = 32 := by decide
  simp only [frame, List.map_cons, List.map_nil, List.getD_cons_zero, hrot, hx, hy, hax,
    hay]

theorem trunc_outside_int : trunc (2147483600 : ℝ) + 64 = 2147483664 := by
  have h := @trunc_intCast ℝ _ _ 2147483600
  have h2 : trunc (2147483600 : ℝ) = 2147483600 := by simpa using h
  rw [h2]
  decide

/-- C1, as stated, fails: the object with the single vertex `(2147483600, 0, 0)`
and the edge `(0, 0)` is valid, and on a 32-bit `int` `render` draws it at
`x = -2147483632`, the sum `2147483600 + 64` being outside `int`, whereas
`trunc pa.x + 64 = 2147483664`. -/
theorem render_pixel_outside_int :
    (⟨1, 1, [⟨0, 0, 0⟩], [⟨2147483600, 0, 0⟩], [⟨0, 0⟩], ⟨0, 0, 0⟩, 1⟩ :
        object_3d ℝ).valid
    ∧ (render int32 (math_h.mk Real.cos Real.sin)
        ⟨⟨1, 1, [⟨0, 0, 0⟩], [⟨2147483600, 0, 0⟩], [⟨0, 0⟩], ⟨0, 0, 0⟩, 1⟩, [], []⟩).map
          machine.oled
        = some [oled_call.drawLine (-2147483632) 32 (-2147483632) 32 WHITE]
    ∧ trunc (rotate (math_h.mk Real.cos Real.sin)
        ((⟨2147483600, 0, 0⟩ : v3 ℝ) * (1 : ℝ)) ⟨0, 0, 0⟩).x + 64 = 2147483664
    ∧ (2147483664 : Int) ≠ -2147483632 := by
  have hrot : rotate (math_h.mk Real.cos Real.sin)
      ((⟨2147483600, 0, 0⟩ : v3 ℝ) * (1 : ℝ)) ⟨0, 0, 0⟩ = ⟨2147483600, 0, 0⟩ := by
    simp [rotate, smul_def]
  have hv : (⟨1, 1, [⟨0, 0, 0⟩], [⟨2147483600, 0, 0⟩], [⟨0, 0⟩], ⟨0, 0, 0⟩, 1⟩ :
      object_3d ℝ).valid := ⟨rfl, rfl, rfl, by decide⟩
  refine ⟨hv, ?_, ?_, by decide⟩
  · rw [render_eq int32 _ _ [] [] hv]
    simp only [Option.map_some', List.nil_append]
    exact congrArg some frame_outside_int
  · rw [hrot]
    exact trunc_outside_int

/-- C1, amended: on an object whose edge indices are all smaller than the vertex
count and whose projected edge endpoints have their pixel inside `int`
(`pixel_ok`), whatever the cache holds, `render` does not fault and appends to
the calls on `oled` exactly one `drawLine` per edge, in edge-list order; the
call for the edge `(a, b)` goes from `(trunc pa.x + 64, trunc pa.y + 32)` to
`(trunc pb.x + 64, trunc pb.y + 32)` in colour `WHITE`, where
`pi = rotate (vertices[i] * scale) rotation`.  The `z` component of `pi` is not
used: `draw` on any cache with the same `x` and `y` components as the one
`render` leaves emits the same calls. -/
theorem render_one_line_per_edge (ci : cxx_int ℝ) (o : object_3d ℝ)
    (cs : List oled_call) (tr : List access) (h : o.valid)
    (hfit : ∀ e ∈ o.edges,
      pixel_ok ci (rotate (math_h.mk Real.cos Real.sin) (o.vertices.getD e.a v3.zero * o.scale) o.rotation)
      ∧ pixel_ok ci (rotate (math_h.mk Real.cos Real.sin) (o.vertices.getD e.b v3.zero * o.scale) o.rotation)) :
    ∃ s, render ci (math_h.mk Real.cos Real.sin) ⟨o, cs, tr⟩ = some s ∧
      s.oled = cs ++ o.edges.map (fun e =>
        oled_call.drawLine
          (trunc (rotate (math_h.mk Real.cos Real.sin)
            (o.vertices.getD e.a v3.zero * o.scale) o.rotation).x + 64)
          (trunc (rotate (math_h.mk Real.cos Real.sin)
            (o.vertices.getD e.a v3.zero * o.scale) o.rotation).y + 32)
          (trunc (rotate (math_h.mk Real.cos Real.sin)
            (o.vertices.getD e.b v3.zero * o.scale) o.rotation).x + 64)
          (trunc (rotate (math_h.mk Real.cos Real.sin)
            (o.vertices.getD e.b v3.zero * o.scale) o.rotation).y + 32)
          WHITE) ∧
      ∀ Q : List (v3 ℝ),
        Q.map (fun p => (p.x, p.y)) = s.obj.projection.map (fun p => (p.x, p.y)) →
        ∃ s2, draw ci ⟨{ s.obj with projection := Q }, cs, tr⟩ = some s2 ∧
          s2.oled = s.oled := by
  refine ⟨_, render_eq ci _ o cs tr h, ?_, ?_⟩
  · simp only [frame]
    congr 1
    apply List.map_congr_left
    intro e he
    obtain ⟨⟨ha1, ha2⟩, ⟨hb1, hb2⟩⟩ := hfit e he
    rw [add_of_double_eq ci _ 64 (by decide) (by decide) ha1.1 ha1.2,
      add_of_double_eq ci _ 32 (by decide) (by decide) ha2.1 ha2.2,
      add_of_double_eq ci _ 64 (by decide) (by decide) hb1.1 hb1.2,
      add_of_double_eq ci _ 32 (by decide) (by decide) hb2.1 hb2.2]
  · intro Q hQ
    have hlen : Q.length = o.vertices.length := by
      have := congrArg List.length hQ
      simpa using this
    have hd := draw_eq ci { o with projection := Q } cs tr h.edges_n_eq
      (by
        intro e he
        have := h.edges_lt e he
        simpa [hlen, h.vertices_n_eq] using this)
    refine ⟨_, hd, ?_⟩
    simp only
    rw [← map_edge_call_projected ci _ o h.vertices_n_eq h.edges_lt]
    congr 1
    apply List.map_congr_left
    intro e _
    exact edge_call_congr ci _ Q hQ e

/-- A point whose truncated `x` and `y` are small has its pixel inside every
`int`. -/
theorem pixel_ok_of_trunc (ci : cxx_int ℝ) (p : v3 ℝ) (x y : Int)
    (htx : trunc p.x = x) (hty : trunc p.y = y)
    (hx : -32767 ≤ x ∧ x ≤ 32000) (hy : -32767 ≤ y ∧ y ≤ 32000) :
    pixel_ok ci p := by
  have hmin := ci.INT_MIN_le
  have hmax := ci.le_INT_MAX
  simp only [pixel_ok, htx, hty]
  omega

/-- Witness of C1 (amended): two vertices and one edge on a 16-bit `int`. -/
theorem render_one_line_per_edge_witness :
    ∃ s, render int16 (math_h.mk Real.cos Real.sin)
        ⟨⟨2, 1, [⟨0, 0, 0⟩, ⟨0, 0, 0⟩], [⟨3, -4, 5⟩, ⟨-6, 7, 8⟩], [⟨0, 1⟩], ⟨0, 0, 0⟩, 1⟩,
          [], []⟩ = some s ∧
      s.oled = [oled_call.drawLine
        (trunc (rotate (math_h.mk Real.cos Real.sin) ((⟨3, -4, 5⟩ : v3 ℝ) * (1 : ℝ)) ⟨0, 0, 0⟩).x + 64)
        (trunc (rotate (math_h.mk Real.cos Real.sin) ((⟨3, -4, 5⟩ : v3 ℝ) * (1 : ℝ)) ⟨0, 0, 0⟩).y + 32)
        (trunc (rotate (math_h.mk Real.cos Real.sin) ((⟨-6, 7, 8⟩ : v3 ℝ) * (1 : ℝ)) ⟨0, 0, 0⟩).x + 64)
        (trunc (rotate (math_h.mk Real.cos Real.sin) ((⟨-6, 7, 8⟩ : v3 ℝ) * (1 : ℝ)) ⟨0, 0, 0⟩).y + 32)
        WHITE] := by
  have h1 : rotate (math_h.mk Real.cos Real.sin) ((⟨3, -4, 5⟩ : v3 ℝ) * (1 : ℝ)) ⟨0, 0, 0⟩
      = ⟨((3 : Int) : ℝ), ((-4 : Int) : ℝ), 5⟩ := by
    simp [rotate, smul_def]
  have h2 : rotate (math_h.mk Real.cos Real.sin) ((⟨-6, 7, 8⟩ : v3 ℝ) * (1 : ℝ)) ⟨0, 0, 0⟩
      = ⟨((-6 : Int) : ℝ), ((7 : Int) : ℝ), 8⟩ := by
    simp [rotate, smul_def]
  obtain ⟨s, hs, ho, _⟩ := render_one_line_per_edge int16
    ⟨2, 1, [⟨0, 0, 0⟩, ⟨0, 0, 0⟩], [⟨3, -4, 5⟩, ⟨-6, 7, 8⟩], [⟨0, 1⟩], ⟨0, 0, 0⟩, 1⟩
    [] [] ⟨rfl, rfl, rfl, by decide⟩
    (by
      intro e he
      have he2 : e = ⟨0, 1⟩ := by simpa using he
      subst he2
      simp only [List.getD_cons_zero, List.getD_cons_succ]
      rw [h1, h2]
      exact ⟨pixel_ok_of_trunc int16 _ 3 (-4) (trunc_intCast 3) (trunc_intCast (-4))
          (by decide) (by decide),
        pixel_ok_of_trunc int16 _ (-6) 7 (trunc_intCast (-6)) (trunc_intCast 7)
          (by decide) (by decide)⟩)
  exact ⟨s, hs, by simpa using ho⟩

/-- In exact real arithmetic, for each of the three single-axis angle triples,
scaling then rotating equals rotating then scaling.  The program's doubles
satisfy this only up to rounding. -/
theorem rotate_smul_single_axis (v : v3 ℝ) (k t : ℝ) :
    rotate (math_h.mk Real.cos Real.sin) (v * k) ⟨t, 0, 0⟩
        = rotate (math_h.mk Real.cos Real.sin) v ⟨t, 0, 0⟩ * k
    ∧ rotate (math_h.mk Real.cos Real.sin) (v * k) ⟨0, t, 0⟩
        = rotate (math_h.mk Real.cos Real.sin) v ⟨0, t, 0⟩ * k
    ∧ rotate (math_h.mk Real.cos Real.sin) (v * k) ⟨0, 0, t⟩
        = rotate (math_h.mk Real.cos Real.sin) v ⟨0, 0, t⟩ * k := by
  obtain ⟨x, y, z⟩ := v
  refine ⟨?_, ?_, ?_⟩ <;>
    simp only [rotate, smul_def, v3.mk.injEq] <;>
    refine ⟨?_, ?_, ?_⟩ <;> ring1

/-- The calls of `n` renders in a row, from any cache of the right length: `n`
copies of the frame, and the object's inputs are unchanged. -/
theorem render_times_eq {α : Type} [LinearOrderedField α] [FloorRing α]
    (ci : cxx_int α) (m : math_h α) (o : object_3d α) (h : o.valid) (n : Nat) :
    ∀ (P : List (v3 α)) (cs : List oled_call) (tr : List access),
      P.length = o.vertices_n →
      ∃ s, render_times ci m n ⟨{ o with projection := P }, cs, tr⟩ = some s ∧
        s.oled = cs ++ (List.replicate n
          (frame ci m o.vertices o.edges o.rotation o.scale)).flatten := by
  induction n with
  | zero =>
    intro P cs tr _
    exact ⟨_, rfl, by simp⟩
  | succ n ih =>
    intro P cs tr hP
    have hv := valid_of_fields o h P hP o.rotation o.scale
    obtain ⟨s, hs, ho⟩ := ih (o.vertices.map (projected m { o with projection := P }))
      (cs ++ frame ci m o.vertices o.edges o.rotation o.scale)
      (tr ++ (List.range o.vertices_n).flatMap update_projection_accesses
        ++ draw_trace o.edges o.edges_n)
      (by simp [h.vertices_n_eq])
    refine ⟨s, ?_, ?_⟩
    · simp only [render_times, Option.bind_eq_bind]
      rw [render_eq ci m _ cs tr hv]
      exact hs
    · rw [ho, List.replicate_succ, List.flatten_cons, List.append_assoc]

/-- C6: `render` invoked `N` times in a row on a valid object, rotation and scale
unchanged, does not fault and appends `N` identical sequences of line-draw
calls, each a function of vertices, edges, rotation and scale alone; started
from any other cache of the same length it emits the same calls. -/
theorem render_times_identical (ci : cxx_int ℝ) (o : object_3d ℝ) (cs : List oled_call)
    (tr : List access) (h : o.valid) (N : Nat) :
    (∃ s, render_times ci (math_h.mk Real.cos Real.sin) N ⟨o, cs, tr⟩ = some s ∧
      s.oled = cs ++ (List.replicate N (frame ci (math_h.mk Real.cos Real.sin)
        o.vertices o.edges o.rotation o.scale)).flatten)
    ∧ ∀ P : List (v3 ℝ), P.length = o.vertices_n →
      (render_times ci (math_h.mk Real.cos Real.sin) N
          ⟨{ o with projection := P }, cs, tr⟩).map machine.oled
        = (render_times ci (math_h.mk Real.cos Real.sin) N ⟨o, cs, tr⟩).map machine.oled := by
  have key := render_times_eq ci (math_h.mk Real.cos Real.sin) o h N
  obtain ⟨s, hs, ho⟩ := key o.projection cs tr h.projection_length
  refine ⟨⟨s, hs, ho⟩, ?_⟩
  intro P hP
  obtain ⟨s2, hs2, ho2⟩ := key P cs tr hP
  have hs1 : render_times ci (math_h.mk Real.cos Real.sin) N ⟨o, cs, tr⟩ = some s := hs
  rw [hs2, hs1, Option.map_some', Option.map_some', ho, ho2]

/-- Witness of C6: three renders of the compiled-in cube. -/
theorem render_times_identical_witness :
    (cube : object_3d ℝ).valid ∧
    ((∃ s, render_times int32 (math_h.mk Real.cos Real.sin) 3 ⟨cube, [], []⟩ = some s ∧
      s.oled = [] ++ (List.replicate 3 (frame int32 (math_h.mk Real.cos Real.sin)
        (cube : object_3d ℝ).vertices (cube : object_3d ℝ).edges
        (cube : object_3d ℝ).rotation (cube : object_3d ℝ).scale)).flatten)
    ∧ ∀ P : List (v3 ℝ), P.length = (cube : object_3d ℝ).vertices_n →
      (render_times int32 (math_h.mk Real.cos Real.sin) 3
          ⟨{ (cube : object_3d ℝ) with projection := P }, [], []⟩).map machine.oled
        = (render_times int32 (math_h.mk Real.cos Real.sin) 3
            ⟨cube, [], []⟩).map machine.oled) :=
  ⟨⟨rfl, rfl, rfl, by decide⟩,
    render_times_identical int32 cube [] [] ⟨rfl, rfl, rfl, by decide⟩ 3⟩

/-! ## Truncation and the screen-centre offset -/

/-- C7, as stated, fails.  With the cached coordinates `(-1/2, -1/2)` the call
that `draw` issues is `(64, 32)`-`(64, 32)`, whereas truncating after adding the
offset gives `(63, 31)`.  And not every value is covered: with the cached
coordinate `2147483600` a 32-bit `int` gives `x = -2147483632`, neither
`trunc (x + 64)` nor `trunc x + 64`, which are `2147483664`. -/
theorem draw_offset_before_truncation_fails :
    draw int32 (⟨⟨1, 1, [⟨-1/2, -1/2, 0⟩], [⟨-1/2, -1/2, 0⟩], [⟨0, 0⟩], ⟨0, 0, 0⟩, 1⟩,
        [], []⟩ : machine ℝ)
      = some ⟨⟨1, 1, [⟨-1/2, -1/2, 0⟩], [⟨-1/2, -1/2, 0⟩], [⟨0, 0⟩], ⟨0, 0, 0⟩, 1⟩,
          [oled_call.drawLine 64 32 64 32 WHITE],
          draw_accesses 0 ⟨0, 0⟩⟩
    ∧ oled_call.drawLine (trunc ((-1/2 : ℝ) + 64)) (trunc ((-1/2 : ℝ) + 32))
          (trunc ((-1/2 : ℝ) + 64)) (trunc ((-1/2 : ℝ) + 32)) WHITE
        = oled_call.drawLine 63 31 63 31 WHITE
    ∧ oled_call.drawLine (trunc ((-1/2 : ℝ) + 64)) (trunc ((-1/2 : ℝ) + 32))
          (trunc ((-1/2 : ℝ) + 64)) (trunc ((-1/2 : ℝ) + 32)) WHITE
        ≠ oled_call.drawLine 64 32 64 32 WHITE
    ∧ (draw int32 (⟨⟨1, 1, [⟨2147483600, 0, 0⟩], [⟨2147483600, 0, 0⟩], [⟨0, 0⟩],
        ⟨0, 0, 0⟩, 1⟩, [], []⟩ : machine ℝ)).map machine.oled
        = some [oled_call.drawLine (-2147483632) 32 (-2147483632) 32 WHITE]
    ∧ trunc ((2147483600 : ℝ) + 64) = 2147483664
    ∧ trunc (2147483600 : ℝ) + 64 = 2147483664 := by
  have h1 : trunc ((-1/2 : ℝ)) = 0 := by
    norm_num [trunc, Int.ceil_eq_iff]
  have h2 : trunc ((-1/2 : ℝ) + 64) = 63 := by
    norm_num [trunc, Int.floor_eq_iff]
  have h3 : trunc ((-1/2 : ℝ) + 32) = 31 := by
    norm_num [trunc, Int.floor_eq_iff]
  have h4 : (int32 : cxx_int ℝ).add ((int32 : cxx_int ℝ).of_double (-1/2 : ℝ)) 64 = 64 := by
    rw [add_of_double_small int32 (-1/2 : ℝ) 64 0 h1 (by decide) (by decide) (by decide)
      (by decide)]
    decide
  have h5 : (int32 : cxx_int ℝ).add ((int32 : cxx_int ℝ).of_double (-1/2 : ℝ)) 32 = 32 := by
    rw [add_of_double_small int32 (-1/2 : ℝ) 32 0 h1 (by decide) (by decide) (by decide)
      (by decide)]
    decide
  have hx : (int32 : cxx_int ℝ).of_double (2147483600 : ℝ) = 2147483600 := by
    have h := int32_of_double_intCast 2147483600 (by decide) (by decide)
    simpa using h
  have hy : (int32 : cxx_int ℝ).of_double (0 : ℝ) = 0 := by
    have h := int32_of_double_intCast 0 (by decide) (by decide)
    simpa using h
  have hax : (int32 : cxx_int ℝ).add 2147483600 64 = -2147483632 := by decide
  have hay : (int32 : cxx_int ℝ).add 0 32 = 32 := by decide
  have h6 : trunc ((2147483600 : ℝ) + 64) = 2147483664 := by
    have h := @trunc_intCast ℝ _ _ 2147483664
    rw [show (2147483600 : ℝ) + 64 = ((2147483664 : Int) : ℝ) by norm_num]
    exact h
  have h7 : trunc (2147483600 : ℝ) = 2147483600 := by
    have h := @trunc_intCast ℝ _ _ 2147483600
    simpa using h
  refine ⟨?_, ?_, ?_, ?_, h6, ?_⟩
  · rw [draw_eq int32 _ _ _ rfl (by simp)]
    simp [edge_call, h4, h5, draw_trace, List.range_succ]
  · rw [h2, h3]
  · rw [h2, h3]; decide
  · rw [draw_eq int32 _ _ _ rfl (by simp)]
    simp [edge_call, hx, hy, hax, hay]
  · rw [h7]; decide

/-- C7, amended: in every call that `draw` issues for an edge `(a, b)` the offset
is added to the truncated coordinate: `x0 = trunc (projection[a].x) + 64`,
`y0 = trunc (projection[a].y) + 32`, `x1 = trunc (projection[b].x) + 64`,
`y1 = trunc (projection[b].y) + 32`, for every value of the cached coordinates
(negative and fractional ones included) whose truncation and whose sum with the
offset are inside `int` (`pixel_ok`). -/
theorem draw_offset_after_truncation (ci : cxx_int ℝ) (o : object_3d ℝ)
    (cs : List oled_call) (tr : List access) (hn : o.edges_n = o.edges.length)
    (hlt : ∀ e ∈ o.edges, e.a < o.projection.length ∧ e.b < o.projection.length)
    (hfit : ∀ e ∈ o.edges, pixel_ok ci (o.projection.getD e.a v3.zero)
      ∧ pixel_ok ci (o.projection.getD e.b v3.zero)) :
    ∃ s, draw ci ⟨o, cs, tr⟩ = some s ∧
      s.oled = cs ++ o.edges.map (fun e =>
        oled_call.drawLine
          (trunc (o.projection.getD e.a v3.zero).x + 64)
          (trunc (o.projection.getD e.a v3.zero).y + 32)
          (trunc (o.projection.getD e.b v3.zero).x + 64)
          (trunc (o.projection.getD e.b v3.zero).y + 32) WHITE) := by
  refine ⟨_, draw_eq ci o cs tr hn hlt, ?_⟩
  simp only
  congr 1
  apply List.map_congr_left
  intro e he
  exact edge_call_of_pixel_ok ci o.projection e (hfit e he).1 (hfit e he).2

/-- Witness of C7 (amended): one edge between two cached points with negative
and fractional coordinates, on a 16-bit `int`. -/
theorem draw_offset_after_truncation_witness :
    ∃ s, draw int16 (⟨⟨2, 1, [⟨-1/2, -3/2, 0⟩, ⟨5/2, -7, 1⟩], [⟨0, 0, 0⟩, ⟨0, 0, 0⟩],
          [⟨0, 1⟩], ⟨0, 0, 0⟩, 1⟩, [], []⟩ : machine ℝ) = some s ∧
      s.oled = [] ++ [edge.mk 0 1].map (fun e =>
        oled_call.drawLine
          (trunc (([⟨-1/2, -3/2, 0⟩, ⟨5/2, -7, 1⟩] : List (v3 ℝ)).getD e.a v3.zero).x + 64)
          (trunc (([⟨-1/2, -3/2, 0⟩, ⟨5/2, -7, 1⟩] : List (v3 ℝ)).getD e.a v3.zero).y + 32)
          (trunc (([⟨-1/2, -3/2, 0⟩, ⟨5/2, -7, 1⟩] : List (v3 ℝ)).getD e.b v3.zero).x + 64)
          (trunc (([⟨-1/2, -3/2, 0⟩, ⟨5/2, -7, 1⟩] : List (v3 ℝ)).getD e.b v3.zero).y + 32)
          WHITE) :=
  draw_offset_after_truncation int16
    ⟨2, 1, [⟨-1/2, -3/2, 0⟩, ⟨5/2, -7, 1⟩], [⟨0, 0, 0⟩, ⟨0, 0, 0⟩], [⟨0, 1⟩], ⟨0, 0, 0⟩, 1⟩
    [] [] rfl (by decide)
    (by
      intro e he
      have he2 : e = ⟨0, 1⟩ := by simpa using he
      subst he2
      exact ⟨pixel_ok_of_trunc int16 ⟨-1/2, -3/2, 0⟩ 0 (-1)
          (by norm_num [trunc, Int.ceil_eq_iff]) (by norm_num [trunc, Int.ceil_eq_iff])
          (by decide) (by decide),
        pixel_ok_of_trunc int16 ⟨5/2, -7, 1⟩ 2 (-7)
          (by norm_num [trunc, Int.floor_eq_iff]) (by norm_num [trunc, Int.ceil_eq_iff])
          (by decide) (by decide)⟩)

/-! ## The compiled-in cube -/

theorem trunc_twenty : trunc (20 : ℝ) = 20 := by
  have h := @trunc_intCast ℝ _ _ 20
  simpa using h

theorem trunc_neg_twenty : trunc (-20 : ℝ) = -20 := by
  have h := @trunc_intCast ℝ _ _ (-20)
  simpa using h

/-- C8: for the compiled-in cube after `setup` (scale 20, rotation `(0, 0, 0)`),
`render` leaves `(20, 20, 20)` in entry 6 of the cache and emits the twelve calls
listed; the call of edge `{5, 6}` goes from `(84, 12)` to `(84, 52)`, and every
call with vertex 6 as an endpoint uses the pixel `(84, 52)` for it. -/
theorem cube_scale_20_vertex_6 (ci : cxx_int ℝ) (vcc : Nat) :
    ∃ s, render ci (math_h.mk Real.cos Real.sin) (setup vcc boot) = some s ∧
      s.obj.projection[6]? = some ⟨20, 20, 20⟩ ∧
      s.oled = (setup vcc (boot : machine ℝ)).oled ++
        [oled_call.drawLine 44 12 84 12 WHITE, oled_call.drawLine 84 12 84 52 WHITE,
         oled_call.drawLine 84 52 44 52 WHITE, oled_call.drawLine 44 52 44 12 WHITE,
         oled_call.drawLine 44 12 84 12 WHITE, oled_call.drawLine 84 12 84 52 WHITE,
         oled_call.drawLine 84 52 44 52 WHITE, oled_call.drawLine 44 52 44 12 WHITE,
         oled_call.drawLine 44 12 44 12 WHITE, oled_call.drawLine 84 12 84 12 WHITE,
         oled_call.drawLine 84 52 84 52 WHITE, oled_call.drawLine 44 52 44 52 WHITE] ∧
      s.oled[3 + 5]? = some (oled_call.drawLine 84 12 84 52 WHITE) ∧
      ∀ k a b x0 y0 x1 y1 c, cube_edges[k]? = some ⟨a, b⟩ →
        s.oled[3 + k]? = some (oled_call.drawLine x0 y0 x1 y1 c) →
        (a = 6 → x0 = 84 ∧ y0 = 52) ∧ (b = 6 → x1 = 84 ∧ y1 = 52) := by
  have hv : ((setup vcc boot : machine ℝ)).obj.valid :=
    valid_of_fields cube cube_valid cube.projection rfl ⟨0, 0, 0⟩ 20
  have hr := render_eq ci (math_h.mk Real.cos Real.sin) (setup vcc boot : machine ℝ).obj
    (setup vcc (boot : machine ℝ)).oled (setup vcc (boot : machine ℝ)).trace hv
  have hf : frame ci (math_h.mk Real.cos Real.sin) (setup vcc boot : machine ℝ).obj.vertices
      (setup vcc boot : machine ℝ).obj.edges (setup vcc boot : machine ℝ).obj.rotation
      (setup vcc boot : machine ℝ).obj.scale =
      [oled_call.drawLine 44 12 84 12 WHITE, oled_call.drawLine 84 12 84 52 WHITE,
       oled_call.drawLine 84 52 44 52 WHITE, oled_call.drawLine 44 52 44 12 WHITE,
       oled_call.drawLine 44 12 84 12 WHITE, oled_call.drawLine 84 12 84 52 WHITE,
       oled_call.drawLine 84 52 44 52 WHITE, oled_call.drawLine 44 52 44 12 WHITE,
       oled_call.drawLine 44 12 44 12 WHITE, oled_call.drawLine 84 12 84 12 WHITE,
       oled_call.drawLine 84 52 84 52 WHITE, oled_call.drawLine 44 52 44 52 WHITE] := by
    have p1 : ci.add (ci.of_double (20 : ℝ)) 64 = 84 :=
      add_of_double_small ci 20 64 20 trunc_twenty (by decide) (by decide) (by decide)
        (by decide)
    have p2 : ci.add (ci.of_double (20 : ℝ)) 32 = 52 :=
      add_of_double_small ci 20 32 20 trunc_twenty (by decide) (by decide) (by decide)
        (by decide)
    have p3 : ci.add (ci.of_double (-20 : ℝ)) 64 = 44 :=
      add_of_double_small ci (-20) 64 (-20) trunc_neg_twenty (by decide) (by decide)
        (by decide) (by decide)
    have p4 : ci.add (ci.of_double (-20 : ℝ)) 32 = 12 :=
      add_of_double_small ci (-20) 32 (-20) trunc_neg_twenty (by decide) (by decide)
        (by decide) (by decide)
    simp [frame, setup, boot, cube, object_3d.new, cube_vertices, cube_edges, rotate,
      smul_def, p1, p2, p3, p4]
  rw [hf] at hr
  refine ⟨_, hr, ?_, rfl, ?_, ?_⟩
  · simp [setup, boot, cube, object_3d.new, cube_vertices, projected, rotate, smul_def]
  · simp [setup, boot]
  · intro k a b x0 y0 x1 y1 c hk hc
    have hk12 : k < 12 := by
      by_contra hge
      have : cube_edges[k]? = none := by
        apply List.getElem?_eq_none
        simp [cube_edges]; omega
      rw [this] at hk
      exact Option.noConfusion hk
    simp only [setup, boot, List.nil_append, List.cons_append] at hc
    interval_cases k <;>
      simp [cube_edges] at hk <;>
      simp [WHITE] at hc <;>
      omega

/-! ## The host loop -/

/-- C9: for every scale `s` and angles `(ax, ay, az)`,
`rotate ((1, 0, 0) * s) (ax, ay, az) = (s cos ay cos az, s cos ay sin az, -s sin ay)`;
one tick of `loop` after `setup` does not fault and leaves the rotation
`(0.05, 0.05, 0.05)`, at which the value is
`(s cos² 0.05, s cos 0.05 sin 0.05, -s sin 0.05)`. -/
theorem rotate_unit_x (ci : cxx_int ℝ) (vcc : Nat) :
    (∀ s ax ay az : ℝ,
      rotate (math_h.mk Real.cos Real.sin) ((⟨1, 0, 0⟩ : v3 ℝ) * s) ⟨ax, ay, az⟩
        = ⟨s * Real.cos ay * Real.cos az, s * Real.cos ay * Real.sin az,
            -(s * Real.sin ay)⟩)
    ∧ ∃ st, loop ci (math_h.mk Real.cos Real.sin) (setup vcc boot) = some st ∧
        st.obj.rotation = ⟨0.05, 0.05, 0.05⟩ ∧
        ∀ s : ℝ,
          rotate (math_h.mk Real.cos Real.sin) ((⟨1, 0, 0⟩ : v3 ℝ) * s) st.obj.rotation
            = ⟨s * Real.cos 0.05 ^ 2, s * Real.cos 0.05 * Real.sin 0.05,
                -(s * Real.sin 0.05)⟩ := by
  have hgen : ∀ s ax ay az : ℝ,
      rotate (math_h.mk Real.cos Real.sin) ((⟨1, 0, 0⟩ : v3 ℝ) * s) ⟨ax, ay, az⟩
        = ⟨s * Real.cos ay * Real.cos az, s * Real.cos ay * Real.sin az,
            -(s * Real.sin ay)⟩ := by
    intro s ax ay az
    simp [rotate, smul_def]
  refine ⟨hgen, ?_⟩
  have hv : ((setup vcc boot : machine ℝ)).obj.valid :=
    valid_of_fields cube cube_valid cube.projection rfl ⟨0, 0, 0⟩ 20
  have hr := render_eq ci (math_h.mk Real.cos Real.sin) (setup vcc boot : machine ℝ).obj
    ((setup vcc (boot : machine ℝ)).oled ++ [oled_call.clearDisplay])
    (setup vcc (boot : machine ℝ)).trace hv
  simp only [loop, Option.bind_eq_bind, Option.pure_def]
  rw [hr]
  simp only [Option.some_bind]
  refine ⟨_, rfl, ?_, ?_⟩
  · simp [setup, boot, cube, object_3d.new]
  · intro s
    simp only [setup, boot, cube, object_3d.new, zero_add]
    rw [hgen, pow_two, mul_assoc]

/-! ## The empty shape -/

/-- C10: with zero vertices and zero edges `render` returns the machine as it
was: no call on `oled`, no array access, no fault, whatever the arrays, the
rotation and the scale; with zero edges and any vertex count inside the arrays
it does not fault and makes no call on `oled`. -/
theorem render_empty (ci : cxx_int ℝ) (o o2 : object_3d ℝ) (cs : List oled_call) (tr : List access)
    (hv : o.vertices_n = 0) (he : o.edges_n = 0)
    (he2 : o2.edges_n = 0) (hv2 : o2.vertices_n ≤ o2.vertices.length)
    (hp2 : o2.projection.length = o2.vertices_n) :
    render ci (math_h.mk Real.cos Real.sin) ⟨o, cs, tr⟩ = some ⟨o, cs, tr⟩
    ∧ ∃ s, render ci (math_h.mk Real.cos Real.sin) ⟨o2, cs, tr⟩ = some s ∧ s.oled = cs := by
  constructor
  · simp [render, update_projection, draw, hv, he]
  · unfold render
    rw [update_projection_eq _ o2 cs tr hv2 hp2]
    simp only [Option.bind_eq_bind, Option.some_bind, draw, he2, List.range_zero,
      List.foldlM_nil, Option.pure_def]
    exact ⟨_, rfl, rfl⟩

/-- Witness of C10: the object constructed with no vertex and no edge, and the
eight cube vertices with no edge. -/
theorem render_empty_witness :
    render int32 (math_h.mk Real.cos Real.sin)
        ⟨(object_3d.new [] [] 0 0 : object_3d ℝ), [], []⟩
      = some ⟨object_3d.new [] [] 0 0, [], []⟩
    ∧ ∃ s, render int32 (math_h.mk Real.cos Real.sin)
        ⟨(object_3d.new cube_vertices [] 8 0 : object_3d ℝ), [], []⟩ = some s ∧
        s.oled = [] :=
  render_empty int32 (object_3d.new [] [] 0 0) (object_3d.new cube_vertices [] 8 0) [] []
    rfl rfl rfl (by decide) rfl

end contract

/-! ## Memory safety and frame of `render` -/

section safety

theorem mem_update_projection_accesses {α : Type} [LinearOrderedField α] [FloorRing α]
    (o : object_3d α) (hv : o.vertices_n ≤ o.vertices.length)
    (hp : o.projection.length = o.vertices_n) :
    ∀ a ∈ (List.range o.vertices_n).flatMap update_projection_accesses,
      access.inside o a := by
  intro a ha
  simp only [List.mem_flatMap, List.mem_range, update_projection_accesses] at ha
  obtain ⟨i, hi, hmem⟩ := ha
  simp only [List.mem_cons, List.mem_singleton, List.not_mem_nil, or_false] at hmem
  rcases hmem with rfl | rfl | rfl | rfl <;> simp only [access.inside] <;> omega

theorem mem_draw_trace {α : Type} [LinearOrderedField α] [FloorRing α]
    (o : object_3d α) (h : o.valid) :
    ∀ a ∈ draw_trace o.edges o.edges_n, access.inside o a := by
  intro a ha
  simp only [draw_trace, List.mem_flatMap, List.mem_range, draw_accesses] at ha
  obtain ⟨i, hi, hmem⟩ := ha
  have hi2 : i < o.edges.length := by have := h.edges_n_eq; omega
  have hget : o.edges.getD i ⟨0, 0⟩ = o.edges[i] := by
    simp [List.getD_eq_getElem?_getD, List.getElem?_eq_getElem hi2]
  have hlt := h.edges_lt o.edges[i] (List.getElem_mem hi2)
  have hpl := h.projection_length
  rw [hget] at hmem
  simp only [List.mem_cons, List.mem_singleton, List.not_mem_nil, or_false] at hmem
  rcases hmem with rfl | rfl | rfl | rfl | rfl | rfl | rfl | rfl <;>
    simp only [access.inside] <;> omega

/-- C11: on an object whose edges all have both indices smaller than the vertex
count, `render` does not fault, and every array access it makes (`vertices[i]`
and `projection[i]` in `update_projection`; `edges[i]`, `projection[edges[i].a]`
and `projection[edges[i].b]` in `draw`) is inside its array, the cache having
vertex-count entries; the compiled-in cube satisfies the precondition, all 24
edge indices being below 8. -/
theorem render_accesses_inside (ci : cxx_int ℝ) (o : object_3d ℝ) (cs : List oled_call)
    (tr : List access) (h : o.valid) :
    (∃ s, render ci (math_h.mk Real.cos Real.sin) ⟨o, cs, tr⟩ = some s ∧
      s.obj.projection.length = o.vertices_n ∧
      s.trace = tr ++ ((List.range o.vertices_n).flatMap update_projection_accesses
        ++ draw_trace o.edges o.edges_n) ∧
      ∀ a ∈ (List.range o.vertices_n).flatMap update_projection_accesses
          ++ draw_trace o.edges o.edges_n, access.inside o a)
    ∧ (cube : object_3d ℝ).valid
    ∧ (cube : object_3d ℝ).vertices_n = 8
    ∧ ((cube : object_3d ℝ).edges.flatMap (fun e => [e.a, e.b])).length = 24
    ∧ ∀ i ∈ (cube : object_3d ℝ).edges.flatMap (fun e => [e.a, e.b]), i < 8 := by
  refine ⟨⟨_, render_eq ci _ o cs tr h, ?_, ?_, ?_⟩, cube_valid, rfl, by decide, by decide⟩
  · simp [h.vertices_n_eq]
  · simp only [List.append_assoc]
  · intro a ha
    rcases List.mem_append.mp ha with ha | ha
    · exact mem_update_projection_accesses o (le_of_eq h.vertices_n_eq)
        h.projection_length a ha
    · exact mem_draw_trace o h a ha

/-- Witness of C11: the compiled-in cube. -/
theorem render_accesses_inside_witness :
    (cube : object_3d ℝ).valid ∧
    ∃ s, render int32 (math_h.mk Real.cos Real.sin) ⟨cube, [], []⟩ = some s ∧
      s.obj.projection.length = (cube : object_3d ℝ).vertices_n ∧
      ∀ a ∈ s.trace, access.inside (cube : object_3d ℝ) a := by
  have hv : (cube : object_3d ℝ).valid := ⟨rfl, rfl, rfl, by decide⟩
  obtain ⟨⟨s, hs, hl, ht, hin⟩, _⟩ := render_accesses_inside int32 cube [] [] hv
  exact ⟨hv, s, hs, hl, by rw [ht]; simpa using hin⟩

/-- The fields of the object that `render` only reads. -/
theorem update_projection_body_frame {α : Type} [LinearOrderedField α] [FloorRing α]
    (m : math_h α) (s s2 : machine α) (i : Nat)
    (h : update_projection_body m s i = some s2) :
    s2.obj.vertices = s.obj.vertices ∧ s2.obj.edges = s.obj.edges ∧
    s2.obj.vertices_n = s.obj.vertices_n ∧ s2.obj.edges_n = s.obj.edges_n ∧
    s2.obj.rotation = s.obj.rotation ∧ s2.obj.scale = s.obj.scale := by
  simp only [update_projection_body, Option.bind_eq_bind, Option.bind_eq_some,
    Option.pure_def, Option.some.injEq] at h
  obtain ⟨v, _, p, _, w, _, q, _, rfl⟩ := h
  exact ⟨rfl, rfl, rfl, rfl, rfl, rfl⟩

theorem draw_body_frame {α : Type} [LinearOrderedField α] [FloorRing α]
    (ci : cxx_int α) (s s2 : machine α) (i : Nat) (h : draw_body ci s i = some s2) :
    s2.obj = s.obj := by
  simp only [draw_body, Option.bind_eq_bind, Option.bind_eq_some,
    Option.pure_def, Option.some.injEq] at h
  obtain ⟨e1, _, p1, _, e2, _, p2, _, e3, _, p3, _, e4, _, p4, _, rfl⟩ := h
  rfl

/-- A loop whose body keeps a relation to the start state keeps it. -/
theorem foldlM_keeps {σ : Type} (R : σ → σ → Prop) (hrefl : ∀ s, R s s)
    (htrans : ∀ a b c, R a b → R b c → R a c)
    (body : σ → Nat → Option σ) (hbody : ∀ s s2 i, body s i = some s2 → R s s2) :
    ∀ (l : List Nat) (s s2 : σ), l.foldlM body s = some s2 → R s s2 := by
  intro l
  induction l with
  | nil =>
    intro s s2 h
    simp only [List.foldlM_nil, Option.pure_def, Option.some.injEq] at h
    subst h
    exact hrefl s
  | cons i l ih =>
    intro s s2 h
    simp only [List.foldlM_cons, Option.bind_eq_bind, Option.bind_eq_some] at h
    obtain ⟨s1, h1, h2⟩ := h
    exact htrans _ _ _ (hbody s s1 i h1) (ih s1 s2 h2)

/-- Whenever `render` returns, on any machine state, it has changed no field of
the object but the cache. -/
theorem render_keeps_inputs {α : Type} [LinearOrderedField α] [FloorRing α]
    (ci : cxx_int α) (m : math_h α) (s s2 : machine α) (h : render ci m s = some s2) :
    s2.obj.vertices = s.obj.vertices ∧ s2.obj.edges = s.obj.edges ∧
    s2.obj.vertices_n = s.obj.vertices_n ∧ s2.obj.edges_n = s.obj.edges_n ∧
    s2.obj.rotation = s.obj.rotation ∧ s2.obj.scale = s.obj.scale := by
  simp only [render, Option.bind_eq_bind, Option.bind_eq_some] at h
  obtain ⟨s1, h1, h2⟩ := h
  have hu := foldlM_keeps
    (fun a b : machine α => b.obj.vertices = a.obj.vertices ∧ b.obj.edges = a.obj.edges ∧
      b.obj.vertices_n = a.obj.vertices_n ∧ b.obj.edges_n = a.obj.edges_n ∧
      b.obj.rotation = a.obj.rotation ∧ b.obj.scale = a.obj.scale)
    (fun _ => ⟨rfl, rfl, rfl, rfl, rfl, rfl⟩)
    (fun a b c hab hbc => ⟨hbc.1.trans hab.1, hbc.2.1.trans hab.2.1,
      hbc.2.2.1.trans hab.2.2.1, hbc.2.2.2.1.trans hab.2.2.2.1,
      hbc.2.2.2.2.1.trans hab.2.2.2.2.1, hbc.2.2.2.2.2.trans hab.2.2.2.2.2⟩)
    (update_projection_body m) (update_projection_body_frame m) _ s s1 h1
  have hd := foldlM_keeps (fun a b : machine α => b.obj = a.obj) (fun _ => rfl)
    (fun a b c hab hbc => hbc.trans hab) (draw_body ci) (draw_body_frame ci) _ s1 s2 h2
  simp only at hd
  rw [hd]
  exact hu

/-- C12: `render` changes nothing of the object but the projection cache: on
every machine state on which it returns, the vertex list, the edge list, the two
counts, the rotation and the scale are what they were before the call; and on
every valid object it does return. -/
theorem render_frame (ci : cxx_int ℝ) (s s2 : machine ℝ)
    (h : render ci (math_h.mk Real.cos Real.sin) s = some s2) :
    (s2.obj.vertices = s.obj.vertices ∧ s2.obj.edges = s.obj.edges ∧
      s2.obj.vertices_n = s.obj.vertices_n ∧ s2.obj.edges_n = s.obj.edges_n ∧
      s2.obj.rotation = s.obj.rotation ∧ s2.obj.scale = s.obj.scale)
    ∧ ∀ (o : object_3d ℝ) (cs : List oled_call) (tr : List access), o.valid →
      ∃ s3, render ci (math_h.mk Real.cos Real.sin) ⟨o, cs, tr⟩ = some s3 ∧
        s3.obj = { o with projection := s3.obj.projection } :=
  ⟨render_keeps_inputs ci _ s s2 h,
    fun o cs tr hv => ⟨_, render_eq ci _ o cs tr hv, rfl⟩⟩

/-- Witness of C12: `render` on the compiled-in cube after `setup`. -/
theorem render_frame_witness :
    ∃ s2, render int32 (math_h.mk Real.cos Real.sin) (setup 2 boot) = some s2 ∧
      s2.obj.vertices = cube_vertices ∧ s2.obj.edges = cube_edges ∧
      s2.obj.vertices_n = 8 ∧ s2.obj.edges_n = 12 ∧
      s2.obj.rotation = ⟨0, 0, 0⟩ ∧ s2.obj.scale = 20 :=
  have hr := render_eq int32 (math_h.mk Real.cos Real.sin) (setup 2 boot : machine ℝ).obj
    (setup 2 (boot : machine ℝ)).oled (setup 2 (boot : machine ℝ)).trace
    (valid_of_fields cube cube_valid cube.projection rfl ⟨0, 0, 0⟩ 20)
  ⟨_, hr, (render_frame int32 (setup 2 boot) _ hr).1⟩

end safety

/-! ## Construction and the cache update -/

section cache

/-- In exact real arithmetic `rotate` has period `2π` in each angle.  The
program's doubles do not satisfy this: no two doubles differ by a non-zero
multiple of `2π`, and `cos`, `sin` of large arguments are rounded. -/
theorem rotate_periodic (v : v3 ℝ) (ax ay az : ℝ) (i j k : ℤ) :
    rotate (math_h.mk Real.cos Real.sin) v
        ⟨ax + 2 * Real.pi * i, ay + 2 * Real.pi * j, az + 2 * Real.pi * k⟩
      = rotate (math_h.mk Real.cos Real.sin) v ⟨ax, ay, az⟩ := by
  have hc : ∀ (t : ℝ) (n : ℤ), Real.cos (t + 2 * Real.pi * n) = Real.cos t := by
    intro t n
    rw [show t + 2 * Real.pi * n = t + n * (2 * Real.pi) by ring]
    exact Real.cos_add_int_mul_two_pi t n
  have hs : ∀ (t : ℝ) (n : ℤ), Real.sin (t + 2 * Real.pi * n) = Real.sin t := by
    intro t n
    rw [show t + 2 * Real.pi * n = t + n * (2 * Real.pi) by ring]
    exact Real.sin_add_int_mul_two_pi t n
  simp only [rotate, hc, hs]

/-- C14, as stated, fails: the object constructed from the single vertex
`(2147483600, 0, 0)` and the edge `(0, 0)`, with the counts equal to the lengths,
is drawn by a 32-bit `int` at `x = -2147483632`, whereas
`trunc v.x + 64 = 2147483664`. -/
theorem construct_pixel_outside_int :
    (render int32 (math_h.mk Real.cos Real.sin)
        ⟨object_3d.new [(⟨2147483600, 0, 0⟩ : v3 ℝ)] [⟨0, 0⟩] 1 1, [], []⟩).map
          machine.oled
        = some [oled_call.drawLine (-2147483632) 32 (-2147483632) 32 WHITE]
    ∧ [edge.mk 0 0].map (fun e =>
        oled_call.drawLine
          (trunc (([⟨2147483600, 0, 0⟩] : List (v3 ℝ)).getD e.a v3.zero).x + 64)
          (trunc (([⟨2147483600, 0, 0⟩] : List (v3 ℝ)).getD e.a v3.zero).y + 32)
          (trunc (([⟨2147483600, 0, 0⟩] : List (v3 ℝ)).getD e.b v3.zero).x + 64)
          (trunc (([⟨2147483600, 0, 0⟩] : List (v3 ℝ)).getD e.b v3.zero).y + 32)
          WHITE)
        ≠ [oled_call.drawLine (-2147483632) 32 (-2147483632) 32 WHITE] := by
  have hv : (object_3d.new [(⟨2147483600, 0, 0⟩ : v3 ℝ)] [⟨0, 0⟩] 1 1 :
      object_3d ℝ).valid := ⟨rfl, rfl, rfl, by decide⟩
  constructor
  · rw [render_eq int32 _ _ [] [] hv]
    simp only [Option.map_some', List.nil_append]
    exact congrArg some frame_outside_int
  · simp only [List.map_cons, List.map_nil, List.getD_cons_zero, trunc_outside_int]
    intro h
    have h2 := (oled_call.drawLine.inj (List.cons.inj h).1).1
    exact absurd h2 (by decide)

/-- C14, amended: the constructor stores the two sequences and the two counts,
allocates a cache of exactly `n` entries and sets rotation `(0, 0, 0)` and scale
`1`; when the counts are the lengths of the sequences, the edge indices are
below `n` and the edge endpoints have their pixel inside `int` (`pixel_ok`), a
render right after construction does not fault and draws every edge between its
two vertices at `(trunc v.x + 64, trunc v.y + 32)`, unrotated and unscaled. -/
theorem construct_then_render (ci : cxx_int ℝ) (V : List (v3 ℝ)) (E : List edge)
    (n k : Nat) (cs : List oled_call) (tr : List access) :
    ((object_3d.new V E n k).vertices = V ∧ (object_3d.new V E n k).edges = E ∧
      (object_3d.new V E n k).vertices_n = n ∧ (object_3d.new V E n k).edges_n = k ∧
      (object_3d.new V E n k).projection.length = n ∧
      (object_3d.new V E n k).rotation = ⟨0, 0, 0⟩ ∧
      (object_3d.new V E n k).scale = 1)
    ∧ (n = V.length → k = E.length → (∀ e ∈ E, e.a < n ∧ e.b < n) →
      (∀ e ∈ E, pixel_ok ci (V.getD e.a v3.zero) ∧ pixel_ok ci (V.getD e.b v3.zero)) →
      ∃ s, render ci (math_h.mk Real.cos Real.sin) ⟨object_3d.new V E n k, cs, tr⟩ = some s ∧
        s.oled = cs ++ E.map (fun e =>
          oled_call.drawLine
            (trunc (V.getD e.a v3.zero).x + 64) (trunc (V.getD e.a v3.zero).y + 32)
            (trunc (V.getD e.b v3.zero).x + 64) (trunc (V.getD e.b v3.zero).y + 32)
            WHITE)) := by
  refine ⟨⟨rfl, rfl, rfl, rfl, by simp [object_3d.new], rfl, rfl⟩, ?_⟩
  intro hn hk hlt hfit
  have hv : (object_3d.new V E n k : object_3d ℝ).valid :=
    ⟨hn, hk, by simp [object_3d.new], hlt⟩
  refine ⟨_, render_eq ci _ _ cs tr hv, ?_⟩
  simp only [frame, object_3d.new]
  congr 1
  apply List.map_congr_left
  intro e he
  have hid : ∀ w : v3 ℝ,
      rotate (math_h.mk Real.cos Real.sin) (w * (1 : ℝ)) ⟨0, 0, 0⟩ = w := by
    intro w
    cases w
    simp [rotate, smul_def]
  simp only [hid]
  exact edge_call_of_pixel_ok ci V e (hfit e he).1 (hfit e he).2

/-- The cube vertices have their pixel inside every `int`. -/
theorem cube_vertices_pixel_ok (ci : cxx_int ℝ) (i : Nat) :
    pixel_ok ci ((cube_vertices : List (v3 ℝ)).getD i v3.zero) := by
  have h1 : trunc (1 : ℝ) = 1 := by
    have h := @trunc_intCast ℝ _ _ 1
    simpa using h
  have h2 : trunc (-1 : ℝ) = -1 := by
    have h := @trunc_intCast ℝ _ _ (-1)
    simpa using h
  have h0 : trunc (0 : ℝ) = 0 := by
    have h := @trunc_intCast ℝ _ _ 0
    simpa using h
  have hmin := ci.INT_MIN_le
  have hmax := ci.le_INT_MAX
  rcases Nat.lt_or_ge i 8 with hi | hi
  · interval_cases i <;>
      simp only [cube_vertices, List.getD_cons_zero, List.getD_cons_succ, pixel_ok, h1, h2] <;>
      omega
  · have hn : (cube_vertices : List (v3 ℝ)).getD i v3.zero = v3.zero := by
      rw [List.getD_eq_getElem?_getD, List.getElem?_eq_none (by simpa [cube_vertices] using hi)]
      rfl
    rw [hn]
    simp only [pixel_ok, v3.zero, h0]
    omega

/-- Witness of C14 (amended): the construction of the compiled-in cube, on a
16-bit `int`. -/
theorem construct_then_render_witness :
    ∃ s, render int16 (math_h.mk Real.cos Real.sin)
        ⟨object_3d.new (cube_vertices : List (v3 ℝ)) cube_edges 8 12, [], []⟩ = some s ∧
      s.oled = [] ++ cube_edges.map (fun e =>
        oled_call.drawLine
          (trunc ((cube_vertices : List (v3 ℝ)).getD e.a v3.zero).x + 64)
          (trunc ((cube_vertices : List (v3 ℝ)).getD e.a v3.zero).y + 32)
          (trunc ((cube_vertices : List (v3 ℝ)).getD e.b v3.zero).x + 64)
          (trunc ((cube_vertices : List (v3 ℝ)).getD e.b v3.zero).y + 32)
          WHITE) :=
  (construct_then_render int16 cube_vertices cube_edges 8 12 [] []).2 rfl rfl (by decide)
    (fun e _ => ⟨cube_vertices_pixel_ok int16 e.a, cube_vertices_pixel_ok int16 e.b⟩)

/-- C16: after `update_projection`, entry `i` of the cache is
`rotate (vertices[i] * scale) rotation` for every `i` below the vertex count,
whatever the cache held before; a second `update_projection` with the rotation
and the scale unchanged leaves the object as the first one left it. -/
theorem update_projection_spec (o : object_3d ℝ) (cs : List oled_call)
    (tr : List access) (hv : o.vertices_n ≤ o.vertices.length)
    (hp : o.projection.length = o.vertices_n) :
    ∃ s1, update_projection (math_h.mk Real.cos Real.sin) ⟨o, cs, tr⟩ = some s1 ∧
      (∀ i, i < o.vertices_n → s1.obj.projection[i]? = some
        (rotate (math_h.mk Real.cos Real.sin)
          (o.vertices.getD i v3.zero * o.scale) o.rotation)) ∧
      (∀ P : List (v3 ℝ), P.length = o.vertices_n →
        (update_projection (math_h.mk Real.cos Real.sin)
          ⟨{ o with projection := P }, cs, tr⟩).map machine.obj = some s1.obj) ∧
      ∃ s2, update_projection (math_h.mk Real.cos Real.sin) s1 = some s2 ∧
        s2.obj = s1.obj ∧ s2.oled = s1.oled := by
  have hlen : ((o.vertices.take o.vertices_n).map
      (projected (math_h.mk Real.cos Real.sin) o)).length = o.vertices_n := by
    simp [List.length_take]; exact hv
  refine ⟨_, update_projection_eq _ o cs tr hv hp, ?_, ?_, ?_⟩
  · intro i hi
    have hi2 : i < o.vertices.length := by omega
    simp [List.getElem?_take, hi, List.getElem?_eq_getElem hi2, projected,
      List.getD_eq_getElem?_getD]
  · intro P hP
    rw [update_projection_eq _ { o with projection := P } cs tr hv hP]
    rfl
  · refine ⟨_, update_projection_eq _
      { o with projection := (List.map (projected (math_h.mk Real.cos Real.sin) o)
          (o.vertices.take o.vertices_n)) } cs _ hv hlen, ?_, rfl⟩
    rfl

/-- Witness of C16: the cache of the compiled-in cube as constructed. -/
theorem update_projection_spec_witness :
    ∃ s1, update_projection (math_h.mk Real.cos Real.sin) ⟨(cube : object_3d ℝ), [], []⟩
        = some s1 ∧
      (∀ i, i < 8 → s1.obj.projection[i]? = some
        (rotate (math_h.mk Real.cos Real.sin)
          ((cube_vertices : List (v3 ℝ)).getD i v3.zero * (1 : ℝ)) ⟨0, 0, 0⟩)) ∧
      ∃ s2, update_projection (math_h.mk Real.cos Real.sin) s1 = some s2 ∧
        s2.obj = s1.obj ∧ s2.oled = s1.oled := by
  obtain ⟨s1, h1, h2, _, h3⟩ :=
    update_projection_spec (cube : object_3d ℝ) [] [] (by decide) rfl
  exact ⟨s1, h1, h2, h3⟩

end cache

/-! ## `rotate` in exact real arithmetic -/

section isometry

/-- In exact real arithmetic `rotate v (ax, ay, az)` is the matrix-vector product
`(Mz az * My ay * Mx ax) * v` of the three standard rotation matrices multiplied
in this order with the column vector of `v`.  On the program's doubles the two
differ by rounding. -/
theorem rotate_eq_matrix (v : v3 ℝ) (ax ay az : ℝ) :
    rotate (math_h.mk Real.cos Real.sin) v ⟨ax, ay, az⟩
      = v3.of_vec ((Mz (math_h.mk Real.cos Real.sin) az
          * My (math_h.mk Real.cos Real.sin) ay
          * Mx (math_h.mk Real.cos Real.sin) ax).mulVec v.to_vec) := by
  obtain ⟨x, y, z⟩ := v
  simp only [rotate, v3.of_vec, v3.to_vec, Mx, My, Mz, Matrix.mulVec, Matrix.dotProduct,
    Matrix.mul_apply, Fin.sum_univ_three, Matrix.of_apply, Matrix.cons_val_zero,
    Matrix.cons_val_one, Matrix.cons_val_two, Matrix.head_cons, Matrix.tail_cons,
    v3.mk.injEq]
  refine ⟨?_, ?_, ?_⟩ <;> ring

theorem rotate_eq_comp (v : v3 ℝ) (ax ay az : ℝ) :
    rotate (math_h.mk Real.cos Real.sin) v ⟨ax, ay, az⟩
      = Rz (math_h.mk Real.cos Real.sin) az
          (Ry (math_h.mk Real.cos Real.sin) ay
            (Rx (math_h.mk Real.cos Real.sin) ax v)) := rfl

theorem Rx_sq_length (t : ℝ) (v : v3 ℝ) :
    (Rx (math_h.mk Real.cos Real.sin) t v).sq_length = v.sq_length := by
  obtain ⟨x, y, z⟩ := v
  simp only [Rx, v3.sq_length]
  linear_combination (y ^ 2 + z ^ 2) * Real.cos_sq_add_sin_sq t

theorem Ry_sq_length (t : ℝ) (v : v3 ℝ) :
    (Ry (math_h.mk Real.cos Real.sin) t v).sq_length = v.sq_length := by
  obtain ⟨x, y, z⟩ := v
  simp only [Ry, v3.sq_length]
  linear_combination (x ^ 2 + z ^ 2) * Real.cos_sq_add_sin_sq t

theorem Rz_sq_length (t : ℝ) (v : v3 ℝ) :
    (Rz (math_h.mk Real.cos Real.sin) t v).sq_length = v.sq_length := by
  obtain ⟨x, y, z⟩ := v
  simp only [Rz, v3.sq_length]
  linear_combination (x ^ 2 + y ^ 2) * Real.cos_sq_add_sin_sq t

/-- The squared length is unchanged by `rotate`. -/
theorem rotate_sq_length (v a : v3 ℝ) :
    (rotate (math_h.mk Real.cos Real.sin) v a).sq_length = v.sq_length := by
  obtain ⟨ax, ay, az⟩ := a
  rw [rotate_eq_comp, Rz_sq_length, Ry_sq_length, Rx_sq_length]

theorem smul_sq_length (v : v3 ℝ) (k : ℝ) :
    (v * k).sq_length = k ^ 2 * v.sq_length := by
  obtain ⟨x, y, z⟩ := v
  simp only [smul_def, v3.sq_length]
  ring

theorem sq_length_nonneg (v : v3 ℝ) : 0 ≤ v.sq_length := by
  simp only [v3.sq_length]
  positivity

/-- Each component of a projected vertex is bounded by the scaled length. -/
theorem projected_sq_le (o : object_3d ℝ) (v : v3 ℝ) :
    (projected (math_h.mk Real.cos Real.sin) o v).x ^ 2 ≤ o.scale ^ 2 * v.sq_length
    ∧ (projected (math_h.mk Real.cos Real.sin) o v).y ^ 2 ≤ o.scale ^ 2 * v.sq_length
    ∧ (projected (math_h.mk Real.cos Real.sin) o v).z ^ 2 ≤ o.scale ^ 2 * v.sq_length := by
  have h := rotate_sq_length (v * o.scale) o.rotation
  rw [smul_sq_length] at h
  rw [← h]
  simp only [projected, v3.sq_length]
  refine ⟨?_, ?_, ?_⟩ <;> nlinarith [sq_nonneg
    (rotate (math_h.mk Real.cos Real.sin) (v * o.scale) o.rotation).x,
    sq_nonneg (rotate (math_h.mk Real.cos Real.sin) (v * o.scale) o.rotation).y,
    sq_nonneg (rotate (math_h.mk Real.cos Real.sin) (v * o.scale) o.rotation).z]

/-- In exact real arithmetic `rotate` preserves the Euclidean length,
`r.x² + r.y² + r.z² = v.x² + v.y² + v.z²` for `r = rotate v angles`; hence each
component of `rotate (v * scale) rotation` is at most
`|scale| * √(v.x² + v.y² + v.z²)` in absolute value.  The program's doubles
satisfy the equality only up to rounding. -/
theorem rotate_preserves_length (v angles : v3 ℝ) (o : object_3d ℝ) :
    ((rotate (math_h.mk Real.cos Real.sin) v angles).x ^ 2
        + (rotate (math_h.mk Real.cos Real.sin) v angles).y ^ 2
        + (rotate (math_h.mk Real.cos Real.sin) v angles).z ^ 2
      = v.x ^ 2 + v.y ^ 2 + v.z ^ 2)
    ∧ |(rotate (math_h.mk Real.cos Real.sin) (v * o.scale) o.rotation).x|
        ≤ |o.scale| * Real.sqrt (v.x ^ 2 + v.y ^ 2 + v.z ^ 2)
    ∧ |(rotate (math_h.mk Real.cos Real.sin) (v * o.scale) o.rotation).y|
        ≤ |o.scale| * Real.sqrt (v.x ^ 2 + v.y ^ 2 + v.z ^ 2)
    ∧ |(rotate (math_h.mk Real.cos Real.sin) (v * o.scale) o.rotation).z|
        ≤ |o.scale| * Real.sqrt (v.x ^ 2 + v.y ^ 2 + v.z ^ 2) := by
  have hs : Real.sqrt (o.scale ^ 2 * v.sq_length)
      = |o.scale| * Real.sqrt (v.x ^ 2 + v.y ^ 2 + v.z ^ 2) := by
    rw [Real.sqrt_mul (sq_nonneg _), Real.sqrt_sq_eq_abs]
    rfl
  obtain ⟨hx, hy, hz⟩ := projected_sq_le o v
  refine ⟨rotate_sq_length v angles, ?_, ?_, ?_⟩
  · rw [← hs]; exact Real.abs_le_sqrt hx
  · rw [← hs]; exact Real.abs_le_sqrt hy
  · rw [← hs]; exact Real.abs_le_sqrt hz

/-! ### Undoing a rotation -/

theorem rotate_x_only (v : v3 ℝ) (t : ℝ) :
    rotate (math_h.mk Real.cos Real.sin) v ⟨t, 0, 0⟩
      = Rx (math_h.mk Real.cos Real.sin) t v := by
  cases v
  simp [rotate, Rx]

theorem rotate_y_only (v : v3 ℝ) (t : ℝ) :
    rotate (math_h.mk Real.cos Real.sin) v ⟨0, t, 0⟩
      = Ry (math_h.mk Real.cos Real.sin) t v := by
  cases v
  simp [rotate, Ry]

theorem rotate_z_only (v : v3 ℝ) (t : ℝ) :
    rotate (math_h.mk Real.cos Real.sin) v ⟨0, 0, t⟩
      = Rz (math_h.mk Real.cos Real.sin) t v := by
  cases v
  simp [rotate, Rz]

theorem Rx_neg_cancel (v : v3 ℝ) (t : ℝ) :
    Rx (math_h.mk Real.cos Real.sin) (-t) (Rx (math_h.mk Real.cos Real.sin) t v) = v := by
  obtain ⟨x, y, z⟩ := v
  have h := Real.cos_sq_add_sin_sq t
  simp only [Rx, Real.cos_neg, Real.sin_neg, v3.mk.injEq]
  refine ⟨trivial, ?_, ?_⟩
  · linear_combination y * h
  · linear_combination z * h

theorem Ry_neg_cancel (v : v3 ℝ) (t : ℝ) :
    Ry (math_h.mk Real.cos Real.sin) (-t) (Ry (math_h.mk Real.cos Real.sin) t v) = v := by
  obtain ⟨x, y, z⟩ := v
  have h := Real.cos_sq_add_sin_sq t
  simp only [Ry, Real.cos_neg, Real.sin_neg, v3.mk.injEq]
  refine ⟨?_, trivial, ?_⟩
  · linear_combination x * h
  · linear_combination z * h

theorem Rz_neg_cancel (v : v3 ℝ) (t : ℝ) :
    Rz (math_h.mk Real.cos Real.sin) (-t) (Rz (math_h.mk Real.cos Real.sin) t v) = v := by
  obtain ⟨x, y, z⟩ := v
  have h := Real.cos_sq_add_sin_sq t
  simp only [Rz, Real.cos_neg, Real.sin_neg, v3.mk.injEq]
  refine ⟨?_, ?_, trivial⟩
  · linear_combination x * h
  · linear_combination y * h

/-- In exact real arithmetic negating all three angles does not undo a
rotation in general: for `v = (1, 0, 0)` and the angles `(π/2, π/2, 0)` the
second call returns `(0, -1, 0)`, not `v`; undoing the axes in reverse order, Z
by `-az`, then Y by `-ay`, then X by `-ax`, returns the original vector for
every `v` and angles.  The program's doubles satisfy the second part only up to
rounding. -/
theorem rotate_inverse_order (v : v3 ℝ) (ax ay az : ℝ) :
    (rotate (math_h.mk Real.cos Real.sin)
        (rotate (math_h.mk Real.cos Real.sin) ⟨1, 0, 0⟩
          ⟨Real.pi / 2, Real.pi / 2, 0⟩)
        ⟨-(Real.pi / 2), -(Real.pi / 2), -0⟩ = ⟨0, -1, 0⟩)
    ∧ (∃ (w : v3 ℝ) (bx bi bz : ℝ),
        rotate (math_h.mk Real.cos Real.sin)
          (rotate (math_h.mk Real.cos Real.sin) w ⟨bx, bi, bz⟩) ⟨-bx, -bi, -bz⟩ ≠ w)
    ∧ rotate (math_h.mk Real.cos Real.sin)
        (rotate (math_h.mk Real.cos Real.sin)
          (rotate (math_h.mk Real.cos Real.sin)
            (rotate (math_h.mk Real.cos Real.sin) v ⟨ax, ay, az⟩)
            ⟨0, 0, -az⟩)
          ⟨0, -ay, 0⟩)
        ⟨-ax, 0, 0⟩ = v := by
  have h1 : rotate (math_h.mk Real.cos Real.sin)
        (rotate (math_h.mk Real.cos Real.sin) ⟨1, 0, 0⟩
          ⟨Real.pi / 2, Real.pi / 2, 0⟩)
        ⟨-(Real.pi / 2), -(Real.pi / 2), -0⟩ = ⟨0, -1, 0⟩ := by
    simp [rotate, Real.cos_pi_div_two, Real.sin_pi_div_two]
  refine ⟨h1, ⟨⟨1, 0, 0⟩, Real.pi / 2, Real.pi / 2, 0, ?_⟩, ?_⟩
  · rw [h1]
    intro h
    have hx := congrArg v3.x h
    norm_num at hx
  · rw [rotate_x_only, rotate_y_only, rotate_z_only, rotate_eq_comp, Rz_neg_cancel,
      Ry_neg_cancel, Rx_neg_cancel]

end isometry

/-! ## The shape of the compiled-in cube -/

section shape

theorem cube_vertices_mem (p : v3 ℝ) :
    p ∈ (cube_vertices : List (v3 ℝ)) ↔
      (p.x = -1 ∨ p.x = 1) ∧ (p.y = -1 ∨ p.y = 1) ∧ (p.z = -1 ∨ p.z = 1) := by
  obtain ⟨x, y, z⟩ := p
  simp only [cube_vertices, List.mem_cons, List.mem_singleton, v3.mk.injEq,
    List.not_mem_nil, or_false]
  constructor
  · intro h
    rcases h with h | h | h | h | h | h | h | h <;>
      (obtain ⟨hx, hy, hz⟩ := h; subst hx hy hz; simp)
  · rintro ⟨rfl | rfl, rfl | rfl, rfl | rfl⟩ <;> simp

theorem cube_vertices_getD (i : Nat) (hi : i < 8) :
    (cube_vertices : List (v3 ℝ)).getD i v3.zero ∈ (cube_vertices : List (v3 ℝ)) := by
  have hl : i < (cube_vertices : List (v3 ℝ)).length := hi
  rw [List.getD_eq_getElem?_getD, List.getElem?_eq_getElem hl]
  exact List.getElem_mem hl

/-- C15: `cube_vertices` are exactly the 8 pairwise distinct points of
`{-1, 1}³`; `cube_edges` are 12 pairwise distinct unordered index pairs, each
joining two vertices that differ in exactly one coordinate, and every pair of
vertices that differ in exactly one coordinate is an edge; every vertex is an
endpoint of exactly 3 edges. -/
theorem cube_is_unit_cube :
    (cube_vertices : List (v3 ℝ)).length = 8
    ∧ (cube_vertices : List (v3 ℝ)).Nodup
    ∧ (∀ p : v3 ℝ, p ∈ (cube_vertices : List (v3 ℝ)) ↔
        (p.x = -1 ∨ p.x = 1) ∧ (p.y = -1 ∨ p.y = 1) ∧ (p.z = -1 ∨ p.z = 1))
    ∧ cube_edges.length = 12
    ∧ (cube_edges.map (fun e => (min e.a e.b, max e.a e.b))).Nodup
    ∧ (∀ e ∈ cube_edges, e.a < 8 ∧ e.b < 8 ∧
        differ_in_one ((cube_vertices : List (v3 ℝ)).getD e.a v3.zero)
          ((cube_vertices : List (v3 ℝ)).getD e.b v3.zero))
    ∧ (∀ a b, a < 8 → b < 8 →
        differ_in_one ((cube_vertices : List (v3 ℝ)).getD a v3.zero)
          ((cube_vertices : List (v3 ℝ)).getD b v3.zero) →
        edge.mk a b ∈ cube_edges ∨ edge.mk b a ∈ cube_edges)
    ∧ ∀ i, i < 8 → (cube_edges.filter (fun e => e.a = i ∨ e.b = i)).length = 3 := by
  refine ⟨rfl, ?_, cube_vertices_mem, rfl, by decide, ?_, ?_, by decide⟩
  · simp only [cube_vertices, List.nodup_cons, List.mem_cons, List.mem_singleton,
      v3.mk.injEq, List.not_mem_nil, List.nodup_nil]
    norm_num
  · intro e he
    simp only [cube_edges, List.mem_cons, List.mem_singleton, List.not_mem_nil,
      or_false] at he
    rcases he with rfl | rfl | rfl | rfl | rfl | rfl | rfl | rfl | rfl | rfl | rfl | rfl <;>
      refine ⟨by decide, by decide, ?_⟩ <;>
      simp only [differ_in_one, cube_vertices, List.getD_cons_succ, List.getD_cons_zero] <;>
      norm_num
  · intro a b ha hb
    interval_cases a <;> interval_cases b <;>
      simp only [differ_in_one, cube_vertices, List.getD_cons_succ, List.getD_cons_zero] <;>
      norm_num <;> decide

/-! ### Pixel range of the rotating cube -/

theorem trunc_abs_lt (d : ℝ) (n : Int) (hn : 0 ≤ n) (h : |d| < (n : ℝ) + 1) :
    -n ≤ trunc d ∧ trunc d ≤ n := by
  obtain ⟨hlo, hhi⟩ := abs_lt.mp h
  unfold trunc
  split
  · rename_i h0
    have h1 : (0 : Int) ≤ ⌊d⌋ := Int.floor_nonneg.mpr h0
    have h2 : ⌊d⌋ < n + 1 := Int.floor_lt.mpr (by push_cast; exact hhi)
    omega
  · rename_i h0
    have h1 : ⌈d⌉ ≤ (0 : Int) := Int.ceil_le.mpr (by push_cast; linarith)
    have h2 : -(n + 1) < ⌈d⌉ := Int.lt_ceil.mpr (by push_cast; linarith)
    omega

theorem cube_vertices_sq_length (v : v3 ℝ) (hv : v ∈ (cube_vertices : List (v3 ℝ))) :
    v.sq_length = 3 := by
  obtain ⟨hx, hy, hz⟩ := (cube_vertices_mem v).mp hv
  simp only [v3.sq_length]
  rcases hx with hx | hx <;> rcases hy with hy | hy <;> rcases hz with hz | hz <;>
    rw [hx, hy, hz] <;> norm_num

/-- At scale 20 every cube vertex is projected strictly inside `(-35, 35)` in
`x` and in `y`, so the truncated coordinates lie in `-34 .. 34`. -/
theorem cube_trunc_range (v r : v3 ℝ) (hv : v ∈ (cube_vertices : List (v3 ℝ))) :
    (-34 ≤ trunc (rotate (math_h.mk Real.cos Real.sin) (v * (20 : ℝ)) r).x
      ∧ trunc (rotate (math_h.mk Real.cos Real.sin) (v * (20 : ℝ)) r).x ≤ 34)
    ∧ (-34 ≤ trunc (rotate (math_h.mk Real.cos Real.sin) (v * (20 : ℝ)) r).y
      ∧ trunc (rotate (math_h.mk Real.cos Real.sin) (v * (20 : ℝ)) r).y ≤ 34) := by
  obtain ⟨hx, hy, _⟩ := projected_sq_le ⟨0, 0, [], [], [], r, 20⟩ v
  simp only [projected] at hx hy
  rw [cube_vertices_sq_length v hv] at hx hy
  constructor
  · apply trunc_abs_lt _ 34 (by decide)
    apply abs_lt_of_sq_lt_sq _ (by norm_num)
    push_cast
    linarith
  · apply trunc_abs_lt _ 34 (by decide)
    apply abs_lt_of_sq_lt_sq _ (by norm_num)
    push_cast
    linarith

theorem sqrt_six_bounds : (12 / 5 : ℝ) ≤ Real.sqrt 6 ∧ Real.sqrt 6 < 5 / 2 := by
  constructor
  · apply Real.le_sqrt_of_sq_le
    norm_num
  · rw [Real.sqrt_lt' (by norm_num)]
    norm_num

theorem tilted_vertex_y (k : ℝ) :
    (rotate (math_h.mk Real.cos Real.sin) ((⟨k, k, k⟩ : v3 ℝ) * (20 : ℝ))
      ⟨-(Real.pi / 4), 0, Real.pi / 6⟩).y = k * (10 + 10 * Real.sqrt 6) := by
  have h6 : Real.sqrt 6 = Real.sqrt 2 * Real.sqrt 3 := by
    rw [← Real.sqrt_mul (by norm_num)]
    norm_num
  simp only [rotate, smul_def, Real.cos_neg, Real.sin_neg, Real.cos_pi_div_four,
    Real.sin_pi_div_four, Real.cos_zero, Real.sin_zero, Real.cos_pi_div_six,
    Real.sin_pi_div_six, h6]
  ring

theorem trunc_tilted :
    trunc (10 + 10 * Real.sqrt 6) = 34 ∧ trunc (-1 * (10 + 10 * Real.sqrt 6)) = -34 := by
  obtain ⟨h1, h2⟩ := sqrt_six_bounds
  constructor
  · have h0 : (0 : ℝ) ≤ 10 + 10 * Real.sqrt 6 := by linarith
    simp only [trunc, h0, if_true]
    rw [Int.floor_eq_iff]
    constructor <;> push_cast <;> linarith
  · have h0 : ¬ (0 : ℝ) ≤ -1 * (10 + 10 * Real.sqrt 6) := by
      intro h
      linarith
    simp only [trunc, h0, if_false]
    rw [Int.ceil_eq_iff]
    constructor <;> push_cast <;> linarith

theorem drawLine_mem_y1 (x0 y0 x1 y1 y : Int) (c : color) (l : List oled_call)
    (h : oled_call.drawLine x0 y0 x1 y1 c ∈ l) (hy : y1 = y) :
    ∃ a b d, oled_call.drawLine a b d y c ∈ l :=
  ⟨x0, y0, x1, hy ▸ h⟩

theorem drawLine_mem_y0 (x0 y0 x1 y1 y : Int) (c : color) (l : List oled_call)
    (h : oled_call.drawLine x0 y0 x1 y1 c ∈ l) (hy : y0 = y) :
    ∃ a d b, oled_call.drawLine a y d b c ∈ l :=
  ⟨x0, x1, y1, hy ▸ h⟩

theorem cube_edges_lt : ∀ e ∈ cube_edges, e.a < 8 ∧ e.b < 8 := by decide

/-- At scale 20 the pixel of every cube vertex is computed inside every `int`
and lies in `30 .. 98` by `-2 .. 66`. -/
theorem cube_pixels (ci : cxx_int ℝ) (v r : v3 ℝ)
    (hv : v ∈ (cube_vertices : List (v3 ℝ))) :
    (30 ≤ ci.add (ci.of_double (rotate (math_h.mk Real.cos Real.sin) (v * (20 : ℝ)) r).x) 64
      ∧ ci.add (ci.of_double (rotate (math_h.mk Real.cos Real.sin) (v * (20 : ℝ)) r).x) 64 ≤ 98)
    ∧ (-2 ≤ ci.add (ci.of_double (rotate (math_h.mk Real.cos Real.sin) (v * (20 : ℝ)) r).y) 32
      ∧ ci.add (ci.of_double (rotate (math_h.mk Real.cos Real.sin) (v * (20 : ℝ)) r).y) 32 ≤ 66) := by
  obtain ⟨⟨hx1, hx2⟩, ⟨hy1, hy2⟩⟩ := cube_trunc_range v r hv
  rw [add_of_double_small ci _ 64 _ rfl (by decide) (by decide) (by omega) (by omega),
    add_of_double_small ci _ 32 _ rfl (by decide) (by decide) (by omega) (by omega)]
  omega

/-- C19: for the compiled-in cube at scale 20 and every rotation, `render` does
not fault and each of its twelve line-draw calls has both `x` coordinates in
`30 .. 98`, inside the 128-pixel width, and both `y` coordinates in `-2 .. 66`;
the `y` range is not inside the 64-pixel height: at the rotation
`(-π/4, 0, π/6)` one call ends at `y = 66` and one starts at `y = -2`. -/
theorem cube_pixel_range (ci : cxx_int ℝ) (vcc : Nat) (ax ay az : ℝ) (cs : List oled_call)
    (tr : List access) :
    (∃ s, render ci (math_h.mk Real.cos Real.sin)
        ⟨{ (setup vcc boot : machine ℝ).obj with rotation := ⟨ax, ay, az⟩ }, cs, tr⟩
          = some s ∧
      ∃ calls, s.oled = cs ++ calls ∧ calls.length = 12 ∧
        ∀ c ∈ calls, ∃ x0 y0 x1 y1, c = oled_call.drawLine x0 y0 x1 y1 WHITE ∧
          (30 ≤ x0 ∧ x0 ≤ 98) ∧ (30 ≤ x1 ∧ x1 ≤ 98) ∧
          (-2 ≤ y0 ∧ y0 ≤ 66) ∧ (-2 ≤ y1 ∧ y1 ≤ 66) ∧
          (0 ≤ x0 ∧ x0 < OLED_X) ∧ (0 ≤ x1 ∧ x1 < OLED_X))
    ∧ ∃ s, render ci (math_h.mk Real.cos Real.sin)
        ⟨{ (setup vcc boot : machine ℝ).obj with
            rotation := ⟨-(Real.pi / 4), 0, Real.pi / 6⟩ }, cs, tr⟩ = some s ∧
        ∃ calls, s.oled = cs ++ calls ∧
          (∃ x0 y0 x1, oled_call.drawLine x0 y0 x1 66 WHITE ∈ calls) ∧
          (∃ x0 x1 y1, oled_call.drawLine x0 (-2) x1 y1 WHITE ∈ calls) ∧
          ¬ (66 < OLED_Y) ∧ ¬ ((0 : Int) ≤ -2) := by
  have hv : ∀ r : v3 ℝ,
      ({ (setup vcc boot : machine ℝ).obj with rotation := r } : object_3d ℝ).valid :=
    fun r => valid_of_fields cube cube_valid cube.projection rfl r 20
  constructor
  · refine ⟨_, render_eq ci _ _ cs tr (hv ⟨ax, ay, az⟩), _, rfl, ?_, ?_⟩
    · simp [frame, setup, boot, cube, object_3d.new, cube_edges]
    · intro c hc
      simp only [frame, List.mem_map] at hc
      obtain ⟨e, he, rfl⟩ := hc
      have he8 := cube_edges_lt e he
      have ha := cube_pixels ci _ ⟨ax, ay, az⟩ (cube_vertices_getD e.a he8.1)
      have hb := cube_pixels ci _ ⟨ax, ay, az⟩ (cube_vertices_getD e.b he8.2)
      refine ⟨_, _, _, _, rfl, ?_⟩
      simp only [setup, boot, cube, object_3d.new, OLED_X]
      omega
  · have hy6 : ci.add (ci.of_double (rotate (math_h.mk Real.cos Real.sin)
        ((cube_vertices : List (v3 ℝ)).getD 6 v3.zero * (20 : ℝ))
        ⟨-(Real.pi / 4), 0, Real.pi / 6⟩).y) 32 = 66 := by
      have h : (cube_vertices : List (v3 ℝ)).getD 6 v3.zero = ⟨1, 1, 1⟩ := rfl
      rw [h, tilted_vertex_y 1, one_mul]
      exact add_of_double_small ci _ 32 34 trunc_tilted.1 (by decide) (by decide)
        (by decide) (by decide)
    have hy0 : ci.add (ci.of_double (rotate (math_h.mk Real.cos Real.sin)
        ((cube_vertices : List (v3 ℝ)).getD 0 v3.zero * (20 : ℝ))
        ⟨-(Real.pi / 4), 0, Real.pi / 6⟩).y) 32 = -2 := by
      have h : (cube_vertices : List (v3 ℝ)).getD 0 v3.zero = ⟨-1, -1, -1⟩ := rfl
      rw [h, tilted_vertex_y (-1)]
      exact add_of_double_small ci _ 32 (-34) trunc_tilted.2 (by decide) (by decide)
        (by decide) (by decide)
    refine ⟨_, render_eq ci _ _ cs tr (hv _), _, rfl, ?_, ?_, by decide, by decide⟩
    · refine drawLine_mem_y1 _ _ _ _ 66 _ _
        (List.mem_map.mpr ⟨⟨5, 6⟩, (show edge.mk 5 6 ∈ cube_edges by decide), rfl⟩) ?_
      simp only [setup, boot, cube, object_3d.new]
      exact hy6
    · refine drawLine_mem_y0 _ _ _ _ (-2) _ _
        (List.mem_map.mpr ⟨⟨0, 1⟩, (show edge.mk 0 1 ∈ cube_edges by decide), rfl⟩) ?_
      simp only [setup, boot, cube, object_3d.new]
      exact hy0

end shape

end Render3D
